import Mathlib

/-!
Verification development for the Pratt-parsing module (`src/pratt.rs`) of the
chumsky parser-combinator library.

Shallow embedding conventions:
* The input abstraction of the surrounding framework is modelled by a parse
  state `PState` holding the cursor position (`pos : Nat`) and the "alt" error
  slot that the framework keeps at the furthest failure offset (`alt`).
  A saved checkpoint (`input::Cursor` / `Marker`) is just the saved position;
  `rewind` restores the position and keeps the alt slot, as in the framework.
* A sub-parser (the atom parser or an operator-token parser) is a function
  `PState ε → PState ε × Option α`: it returns the updated state and
  `some value` on success, `none` on failure.  Its `Check`-mode run is the
  same state evolution with the value dropped (the framework contract that
  both modes behave identically except for value construction).
* `u16` binding powers are modelled as `Nat`; the `u32` arithmetic of
  `left_power`/`right_power` is modelled exactly with an explicit `% 2^32`.
* The `loop`/recursion of the drivers is modelled with explicit fuel:
  a result of `none` means the fuel ran out, `some (s, none)` is a parse
  failure, `some (s, some v)` a parse success.
* The `MapExtra` span context handed to fold functions does not influence
  control flow and is omitted from the fold signatures.
* The macro-generated tuple driver (`impl_pratt_for_tuple`) is specialized
  per arity, but every tuple element is handled by the same per-operator
  code; it is embedded over a `List` of operators, the static heterogeneity
  collapsed into the `Op` sum type.  The Vec driver (`pratt_go_slice`) is
  embedded over the same type; the two embeddings differ exactly where the
  two sources differ (the target of the `continue` after a postfix success).
-/

namespace ChumskyPratt

/-- Parse state: cursor position plus the framework's furthest-failure slot. -/
structure PState (ε : Type) where
  pos : Nat
  alt : Option (Nat × ε)
  deriving DecidableEq, Repr

/-- A sub-parser over the abstract input: new state plus optional value. -/
abbrev PFn (ε α : Type) := PState ε → PState ε × Option α

/-- Restoring a saved cursor: the position is restored exactly, the alt error
slot is untouched (rewinds do not erase the furthest recorded failure). -/
def rewind (c : Nat) (s : PState ε) : PState ε := { s with pos := c }

/-- Modelled from the spec: sub-parsers record their failure in the input's
"alt" slot, which keeps the failure at the furthest offset (the diagnostic
finally reported by a failing parse).  The error machinery itself lives
outside this module. -/
def addAlt (s : PState ε) (p : Nat) (e : ε) : PState ε :=
  match s.alt with
  | none => { s with alt := some (p, e) }
  | some (q, _) => if q < p then { s with alt := some (p, e) } else s

/-- `Associativity` from `pratt.rs`: `Left(u16)` or `Right(u16)`. -/
inductive Associativity where
  | left (power : Nat)
  | right (power : Nat)
  deriving DecidableEq, Repr

/-- The modulus of Rust `u32` arithmetic. -/
def U32 : Nat := 4294967296

/-- `Associativity::left_power`: `x*2` for `Left(x)`, `x*2+1` for `Right(x)`,
computed in `u32`. -/
def Associativity.leftPower : Associativity → Nat
  | .left x => (x * 2) % U32
  | .right x => (x * 2 + 1) % U32

/-- `Associativity::right_power`: `x*2+1` for `Left(x)`, `x*2` for `Right(x)`,
computed in `u32`. -/
def Associativity.rightPower : Associativity → Nat
  | .left x => (x * 2 + 1) % U32
  | .right x => (x * 2) % U32

/-- An operator definition: the three concrete `Operator` variants of
`pratt.rs` (`Prefix`, `Postfix`, `Infix`), each owning its operator-token
sub-parser and fold function.  `preOp`/`postOp` store a `u16` binding power,
`infOp` a full associativity. -/
inductive Op (ε τ α : Type) where
  | preOp (power : Nat) (opParser : PFn ε τ) (fold : τ → α → α)
  | postOp (power : Nat) (opParser : PFn ε τ) (fold : α → τ → α)
  | infOp (assoc : Associativity) (opParser : PFn ε τ) (fold : α → τ → α → α)

/-- `Operator::is_prefix`. -/
def Op.isPre : Op ε τ α → Bool
  | .preOp .. => true
  | _ => false

/-- `Operator::is_postfix`. -/
def Op.isPost : Op ε τ α → Bool
  | .postOp .. => true
  | _ => false

/-- `Operator::is_infix`. -/
def Op.isInf : Op ε τ α → Bool
  | .infOp .. => true
  | _ => false

/-- `Operator::associativity`: the unary variants report
`Left(binding_power)`, the binary variant its declared associativity. -/
def Op.assoc : Op ε τ α → Associativity
  | .preOp p _ _ => .left p
  | .postOp p _ _ => .left p
  | .infOp a _ _ => a

/-- Result of a driver call: `none` = fuel exhausted, `some (s, none)` =
parse failure with final state `s`, `some (s, some v)` = success. -/
abbrev PRes (ε α : Type) := Option (PState ε × Option α)

/-- The recursion continuation handed to `do_parse_prefix`/`do_parse_infix`:
a re-entry into the driver at a given state and minimum binding power. -/
abbrev Recur (ε α : Type) := PState ε → Nat → PRes ε α

/-- `Prefix::do_parse_prefix` (Emit mode): run the operator-token sub-parser;
on success recurse via `f` with this operator's `left_power()` as the new
minimum power, then fold; any sub-failure yields a failure (the caller
rewinds).  On a non-`Prefix` variant the trait method is unreachable
(`unimplemented!`); the driver guards every call with `is_prefix`. -/
def doParsePreE (op : Op ε τ α) (s : PState ε) (f : Recur ε α) : PRes ε α :=
  match op with
  | .preOp power opP fold =>
    match opP s with
    | (s1, some tok) =>
      match f s1 (Associativity.leftPower (.left power)) with
      | none => none
      | some (s2, some rhs) => some (s2, some (fold tok rhs))
      | some (s2, none) => some (s2, none)
    | (s1, none) => some (s1, none)
  | _ => some (s, none)

/-- `Postfix::do_parse_postfix` (Emit mode): run the operator-token
sub-parser; on success fold `lhs` with the token (`Ok`), on failure return
the original `lhs` unchanged (`Err`). -/
def doParsePostE (op : Op ε τ α) (lhs : α) (s : PState ε) :
    PState ε × Except α α :=
  match op with
  | .postOp _ opP fold =>
    match opP s with
    | (s1, some tok) => (s1, .ok (fold lhs tok))
    | (s1, none) => (s1, .error lhs)
  | _ => (s, .error lhs)

/-- `Infix::do_parse_infix` (Emit mode): run the operator-token sub-parser;
on success recurse via `f` with this operator's `right_power()` as the new
minimum power for the right operand, then fold all three pieces (`Ok`);
failure of either the token or the right operand returns the original `lhs`
unchanged (`Err`). -/
def doParseInfE (op : Op ε τ α) (lhs : α) (s : PState ε) (f : Recur ε α) :
    Option (PState ε × Except α α) :=
  match op with
  | .infOp assoc opP fold =>
    match opP s with
    | (s1, some tok) =>
      match f s1 assoc.rightPower with
      | none => none
      | some (s2, some rhs) => some (s2, .ok (fold lhs tok rhs))
      | some (s2, none) => some (s2, .error lhs)
    | (s1, none) => some (s1, .error lhs)
  | _ => some (s, .error lhs)

/-- The operand phase shared by both drivers: iterate the operators in
declaration order; the first prefix-capable operator whose attempt succeeds
supplies `lhs` (`.inl`); a failed attempt rewinds to `pre_expr` and the next
operator is tried; if none succeeds the driver falls through to the atom
(`.inr` carries the state the atom will run in). -/
def prePhaseE (f : Recur ε α) (preExpr : Nat) :
    List (Op ε τ α) → PState ε → Option (Sum (PState ε × α) (PState ε))
  | [], s => some (.inr s)
  | op :: rest, s =>
    if op.isPre then
      match doParsePreE op s f with
      | none => none
      | some (s1, some v) => some (.inl (s1, v))
      | some (s1, none) => prePhaseE f preExpr rest (rewind preExpr s1)
    else prePhaseE f preExpr rest s

/-- The postfix section of one iteration of the tuple driver's loop
(`Pratt::pratt_go`, macro-expanded): try each postfix-capable operator with
`right_power() >= min_power` in declaration order; the first success yields
`.inl` (the `continue` restarting the outer loop); a failure keeps `lhs` and
rewinds to `pre_op`; if none succeeds, `.inr` falls through to the infix
section. -/
def postScanTE (minPower preOp : Nat) :
    List (Op ε τ α) → α → PState ε → Sum (PState ε × α) (PState ε × α)
  | [], lhs, s => .inr (s, lhs)
  | op :: rest, lhs, s =>
    if op.isPost ∧ minPower ≤ op.assoc.rightPower then
      match doParsePostE op lhs s with
      | (s1, .ok out) => .inl (s1, out)
      | (s1, .error out) => postScanTE minPower preOp rest out (rewind preOp s1)
    else postScanTE minPower preOp rest lhs s

/-- The postfix `for` loop of the slice driver (`pratt_go_slice`): identical
to the tuple version except that the `continue` after a success is unlabeled
and therefore continues the `for` loop over the operators — the scan keeps
going with the updated `lhs` and advanced input while `pre_op` stays at the
position saved before the success. -/
def postScanSE (minPower preOp : Nat) :
    List (Op ε τ α) → α → PState ε → PState ε × α
  | [], lhs, s => (s, lhs)
  | op :: rest, lhs, s =>
    if op.isPost ∧ minPower ≤ op.assoc.rightPower then
      match doParsePostE op lhs s with
      | (s1, .ok out) => postScanSE minPower preOp rest out s1
      | (s1, .error out) => postScanSE minPower preOp rest out (rewind preOp s1)
    else postScanSE minPower preOp rest lhs s

/-- The infix section of one loop iteration, shared by both drivers: try each
infix-capable operator with `left_power() >= min_power` in declaration order;
the first success yields `.inl` (the `continue`/`continue 'luup` restarting
the outer loop); a failure keeps `lhs` and rewinds to `pre_op`; if none
succeeds `.inr` ends the iteration. -/
def infScanE (f : Recur ε α) (minPower preOp : Nat) :
    List (Op ε τ α) → α → PState ε →
    Option (Sum (PState ε × α) (PState ε × α))
  | [], lhs, s => some (.inr (s, lhs))
  | op :: rest, lhs, s =>
    if op.isInf ∧ minPower ≤ op.assoc.leftPower then
      match doParseInfE op lhs s f with
      | none => none
      | some (s1, .ok out) => some (.inl (s1, out))
      | some (s1, .error out) => infScanE f minPower preOp rest out (rewind preOp s1)
    else infScanE f minPower preOp rest lhs s

/-- The continuation loop of the tuple driver (`Pratt::pratt_go`): save
`pre_op`, run the postfix section; a postfix success restarts the loop with
the new `lhs` (fresh `pre_op`); otherwise run the infix section, whose
success also restarts the loop; if neither matched, rewind to `pre_op` and
return `lhs`. -/
def prattLoopTE (fuel : Nat) (recur : Recur ε α) (ops : List (Op ε τ α))
    (minPower : Nat) (lhs : α) (s : PState ε) : PRes ε α :=
  match fuel with
  | 0 => none
  | f + 1 =>
    let preOp := s.pos
    match postScanTE minPower preOp ops lhs s with
    | .inl (s1, lhs1) => prattLoopTE f recur ops minPower lhs1 s1
    | .inr (s1, lhs1) =>
      match infScanE recur minPower preOp ops lhs1 s1 with
      | none => none
      | some (.inl (s2, lhs2)) => prattLoopTE f recur ops minPower lhs2 s2
      | some (.inr (s2, lhs2)) => some (rewind preOp s2, some lhs2)

/-- The tuple driver `Pratt::pratt_go` (Emit mode): save `pre_expr`, run the
operand phase (prefix operators, falling back to the atom, whose failure is
the overall failure), then run the continuation loop. -/
def prattGoTE (fuel : Nat) (atom : PFn ε α) (ops : List (Op ε τ α))
    (s : PState ε) (minPower : Nat) : PRes ε α :=
  match fuel with
  | 0 => none
  | f + 1 =>
    let preExpr := s.pos
    let recur : Recur ε α := fun s1 mp => prattGoTE f atom ops s1 mp
    match prePhaseE recur preExpr ops s with
    | none => none
    | some (.inl (s1, lhs)) => prattLoopTE f recur ops minPower lhs s1
    | some (.inr s1) =>
      match atom s1 with
      | (s2, some lhs) => prattLoopTE f recur ops minPower lhs s2
      | (s2, none) => some (s2, none)

/-- The continuation loop of the slice driver (`pratt_go_slice`): save
`pre_op`, run the whole postfix `for` loop (which absorbs successes itself —
see `postScanSE`), then the infix section; an infix success restarts the
loop (`continue 'luup`); otherwise rewind to `pre_op` and return `lhs`. -/
def prattLoopSE (fuel : Nat) (recur : Recur ε α) (ops : List (Op ε τ α))
    (minPower : Nat) (lhs : α) (s : PState ε) : PRes ε α :=
  match fuel with
  | 0 => none
  | f + 1 =>
    let preOp := s.pos
    let r := postScanSE minPower preOp ops lhs s
    match infScanE recur minPower preOp ops r.2 r.1 with
    | none => none
    | some (.inl (s2, lhs2)) => prattLoopSE f recur ops minPower lhs2 s2
    | some (.inr (s2, lhs2)) => some (rewind preOp s2, some lhs2)

/-- The slice driver `pratt_go_slice` (Emit mode): operand phase identical to
the tuple driver, then the slice continuation loop. -/
def prattGoSE (fuel : Nat) (atom : PFn ε α) (ops : List (Op ε τ α))
    (s : PState ε) (minPower : Nat) : PRes ε α :=
  match fuel with
  | 0 => none
  | f + 1 =>
    let preExpr := s.pos
    let recur : Recur ε α := fun s1 mp => prattGoSE f atom ops s1 mp
    match prePhaseE recur preExpr ops s with
    | none => none
    | some (.inl (s1, lhs)) => prattLoopSE f recur ops minPower lhs s1
    | some (.inr s1) =>
      match atom s1 with
      | (s2, some lhs) => prattLoopSE f recur ops minPower lhs s2
      | (s2, none) => some (s2, none)

/-! ### Check-mode instantiation

The same algorithm bodies with `M = Check`: `M::Output<O> = ()`, every
`M::combine` is a no-op, and a sub-parser's Check run is its Emit run with
the produced value dropped (the framework's mode contract). -/

/-- Result of a Check-mode driver call. -/
abbrev PResC (ε : Type) := Option (PState ε × Option Unit)

/-- Check-mode recursion continuation. -/
abbrev RecurC (ε : Type) := PState ε → Nat → PResC ε

/-- `Prefix::do_parse_prefix` with `M = Check`: same control flow as
`doParsePreE`, no value is built. -/
def doParsePreC (op : Op ε τ α) (s : PState ε) (f : RecurC ε) : PResC ε :=
  match op with
  | .preOp power opP _fold =>
    match opP s with
    | (s1, some _tok) =>
      match f s1 (Associativity.leftPower (.left power)) with
      | none => none
      | some (s2, some _rhs) => some (s2, some ())
      | some (s2, none) => some (s2, none)
    | (s1, none) => some (s1, none)
  | _ => some (s, none)

/-- `Postfix::do_parse_postfix` with `M = Check`. -/
def doParsePostC (op : Op ε τ α) (lhs : Unit) (s : PState ε) :
    PState ε × Except Unit Unit :=
  match op with
  | .postOp _ opP _fold =>
    match opP s with
    | (s1, some _tok) => (s1, .ok ())
    | (s1, none) => (s1, .error lhs)
  | _ => (s, .error lhs)

/-- `Infix::do_parse_infix` with `M = Check`. -/
def doParseInfC (op : Op ε τ α) (lhs : Unit) (s : PState ε) (f : RecurC ε) :
    Option (PState ε × Except Unit Unit) :=
  match op with
  | .infOp assoc opP _fold =>
    match opP s with
    | (s1, some _tok) =>
      match f s1 assoc.rightPower with
      | none => none
      | some (s2, some _rhs) => some (s2, .ok ())
      | some (s2, none) => some (s2, .error lhs)
    | (s1, none) => some (s1, .error lhs)
  | _ => some (s, .error lhs)

/-- Check-mode operand phase (see `prePhaseE`). -/
def prePhaseC (f : RecurC ε) (preExpr : Nat) :
    List (Op ε τ α) → PState ε → Option (Sum (PState ε × Unit) (PState ε))
  | [], s => some (.inr s)
  | op :: rest, s =>
    if op.isPre then
      match doParsePreC op s f with
      | none => none
      | some (s1, some v) => some (.inl (s1, v))
      | some (s1, none) => prePhaseC f preExpr rest (rewind preExpr s1)
    else prePhaseC f preExpr rest s

/-- Check-mode postfix section of the tuple driver (see `postScanTE`). -/
def postScanTC (minPower preOp : Nat) :
    List (Op ε τ α) → Unit → PState ε →
    Sum (PState ε × Unit) (PState ε × Unit)
  | [], lhs, s => .inr (s, lhs)
  | op :: rest, lhs, s =>
    if op.isPost ∧ minPower ≤ op.assoc.rightPower then
      match doParsePostC op lhs s with
      | (s1, .ok out) => .inl (s1, out)
      | (s1, .error out) => postScanTC minPower preOp rest out (rewind preOp s1)
    else postScanTC minPower preOp rest lhs s

/-- Check-mode postfix `for` loop of the slice driver (see `postScanSE`). -/
def postScanSC (minPower preOp : Nat) :
    List (Op ε τ α) → Unit → PState ε → PState ε × Unit
  | [], lhs, s => (s, lhs)
  | op :: rest, lhs, s =>
    if op.isPost ∧ minPower ≤ op.assoc.rightPower then
      match doParsePostC op lhs s with
      | (s1, .ok out) => postScanSC minPower preOp rest out s1
      | (s1, .error out) => postScanSC minPower preOp rest out (rewind preOp s1)
    else postScanSC minPower preOp rest lhs s

/-- Check-mode infix section (see `infScanE`). -/
def infScanC (f : RecurC ε) (minPower preOp : Nat) :
    List (Op ε τ α) → Unit → PState ε →
    Option (Sum (PState ε × Unit) (PState ε × Unit))
  | [], lhs, s => some (.inr (s, lhs))
  | op :: rest, lhs, s =>
    if op.isInf ∧ minPower ≤ op.assoc.leftPower then
      match doParseInfC op lhs s f with
      | none => none
      | some (s1, .ok out) => some (.inl (s1, out))
      | some (s1, .error out) => infScanC f minPower preOp rest out (rewind preOp s1)
    else infScanC f minPower preOp rest lhs s

/-- Check-mode continuation loop of the tuple driver (see `prattLoopTE`). -/
def prattLoopTC (fuel : Nat) (recur : RecurC ε) (ops : List (Op ε τ α))
    (minPower : Nat) (lhs : Unit) (s : PState ε) : PResC ε :=
  match fuel with
  | 0 => none
  | f + 1 =>
    let preOp := s.pos
    match postScanTC minPower preOp ops lhs s with
    | .inl (s1, lhs1) => prattLoopTC f recur ops minPower lhs1 s1
    | .inr (s1, lhs1) =>
      match infScanC recur minPower preOp ops lhs1 s1 with
      | none => none
      | some (.inl (s2, lhs2)) => prattLoopTC f recur ops minPower lhs2 s2
      | some (.inr (s2, lhs2)) => some (rewind preOp s2, some lhs2)

/-- Check-mode tuple driver `Pratt::pratt_go::<Check>`. -/
def prattGoTC (fuel : Nat) (atom : PFn ε α) (ops : List (Op ε τ α))
    (s : PState ε) (minPower : Nat) : PResC ε :=
  match fuel with
  | 0 => none
  | f + 1 =>
    let preExpr := s.pos
    let recur : RecurC ε := fun s1 mp => prattGoTC f atom ops s1 mp
    match prePhaseC recur preExpr ops s with
    | none => none
    | some (.inl (s1, lhs)) => prattLoopTC f recur ops minPower lhs s1
    | some (.inr s1) =>
      match atom s1 with
      | (s2, some _lhs) => prattLoopTC f recur ops minPower () s2
      | (s2, none) => some (s2, none)

/-- Check-mode continuation loop of the slice driver (see `prattLoopSE`). -/
def prattLoopSC (fuel : Nat) (recur : RecurC ε) (ops : List (Op ε τ α))
    (minPower : Nat) (lhs : Unit) (s : PState ε) : PResC ε :=
  match fuel with
  | 0 => none
  | f + 1 =>
    let preOp := s.pos
    let r := postScanSC minPower preOp ops lhs s
    match infScanC recur minPower preOp ops r.2 r.1 with
    | none => none
    | some (.inl (s2, lhs2)) => prattLoopSC f recur ops minPower lhs2 s2
    | some (.inr (s2, lhs2)) => some (rewind preOp s2, some lhs2)

/-- Check-mode slice driver `pratt_go_slice::<Check>`. -/
def prattGoSC (fuel : Nat) (atom : PFn ε α) (ops : List (Op ε τ α))
    (s : PState ε) (minPower : Nat) : PResC ε :=
  match fuel with
  | 0 => none
  | f + 1 =>
    let preExpr := s.pos
    let recur : RecurC ε := fun s1 mp => prattGoSC f atom ops s1 mp
    match prePhaseC recur preExpr ops s with
    | none => none
    | some (.inl (s1, lhs)) => prattLoopSC f recur ops minPower lhs s1
    | some (.inr s1) =>
      match atom s1 with
      | (s2, some _lhs) => prattLoopSC f recur ops minPower () s2
      | (s2, none) => some (s2, none)

/-! ### Concrete sub-parsers for the repository's tests

These primitives (`just`, `text::int`, `.padded()`, `end()`) live outside
`src/pratt.rs`; they are modelled from the spec's boundary contracts
(atom/operator-token sub-parsers succeed or fail, recording their failure
offset in the alt slot). -/

/-- Character at an offset of the concrete input. -/
def charAt (inp : List Char) (n : Nat) : Option Char := inp[n]?

/-- Modelled from the spec: the `just(c)` single-token parser — consumes one
matching character or fails at the current offset. -/
def justP (inp : List Char) (c : Char) : PFn Unit Char := fun s =>
  match charAt inp s.pos with
  | some c' => if c' = c then ({ s with pos := s.pos + 1 }, some c)
               else (addAlt s s.pos (), none)
  | none => (addAlt s s.pos (), none)

/-- Number of leading spaces of a character list. -/
def wsCount : List Char → Nat
  | [] => 0
  | c :: rest => if c = ' ' then wsCount rest + 1 else 0

/-- Number of leading decimal digits of a character list. -/
def digitSpan : List Char → Nat
  | [] => 0
  | c :: rest => if c.isDigit then digitSpan rest + 1 else 0

/-- Decimal value of a digit list (accumulator form). -/
def digitsVal : List Char → Nat → Nat
  | [], acc => acc
  | c :: rest, acc => digitsVal rest (acc * 10 + (c.toNat - 48))

/-- Modelled from the spec: the integer atom `text::int(10).padded()` used by
the precedence tests — skips surrounding spaces, reads a nonempty digit run,
fails (at the offset where digits were expected) otherwise. -/
def intAtomP (inp : List Char) : PFn Unit Int := fun s =>
  let p1 := s.pos + wsCount (inp.drop s.pos)
  let k := digitSpan (inp.drop p1)
  if k = 0 then (addAlt s p1 (), none)
  else
    let v : Int := Int.ofNat (digitsVal ((inp.drop p1).take k) 0)
    let p2 := p1 + k
    ({ s with pos := p2 + wsCount (inp.drop p2) }, some v)

/-- Expression trees as built by the fold functions of the repository's
`expr_parser` test. -/
inductive Expr where
  | lit (n : Nat)
  | add (l r : Expr)
  | sub (l r : Expr)
  | mul (l r : Expr)
  | div (l r : Expr)
  | conf (e : Expr)
  deriving DecidableEq, Repr

/-- Modelled from the spec: the unpadded integer atom
`text::int(10).from_str().unwrapped().map(Expr::Literal)` of the
`expr_parser` test. -/
def litAtomP (inp : List Char) : PFn Unit Expr := fun s =>
  let k := digitSpan (inp.drop s.pos)
  if k = 0 then (addAlt s s.pos (), none)
  else
    ({ s with pos := s.pos + k }, some (.lit (digitsVal ((inp.drop s.pos).take k) 0)))

/-- Modelled from the spec: the `end()` parser — succeeds exactly at the end
of input, otherwise fails at the current offset. -/
def endP (inp : List Char) : PFn Unit Unit := fun s =>
  match charAt inp s.pos with
  | none => (s, some ())
  | some _ => (addAlt s s.pos (), none)

/-- The operator table of the `precedence` test: `+`,`-` left-associative
with power 0, `*`,`/` left-associative with power 1, folds doing `i64`
arithmetic. -/
def opsArith (inp : List Char) : List (Op Unit Char Int) :=
  [ .infOp (.left 0) (justP inp '+') (fun l _ r => l + r),
    .infOp (.left 0) (justP inp '-') (fun l _ r => l - r),
    .infOp (.left 1) (justP inp '*') (fun l _ r => l * r),
    .infOp (.left 1) (justP inp '/') (fun l _ r => l / r) ]

/-- The operator table of the `expr_parser` test: `+`,`-` left-associative
power 0 and `*`,`/` right-associative power 1, folds building `Expr` trees. -/
def opsExpr (inp : List Char) : List (Op Unit Char Expr) :=
  [ .infOp (.left 0) (justP inp '+') (fun l _ r => .add l r),
    .infOp (.left 0) (justP inp '-') (fun l _ r => .sub l r),
    .infOp (.right 1) (justP inp '*') (fun l _ r => .mul l r),
    .infOp (.right 1) (justP inp '/') (fun l _ r => .div l r) ]

/-- Initial parse state. -/
def s0 : PState Unit := { pos := 0, alt := none }

/-- Run the tuple engine on the arithmetic test parser and project out the
final cursor position and the semantic outcome. -/
def runArithT (str : String) (fuel : Nat) : Option (Nat × Option Int) :=
  (prattGoTE fuel (intAtomP str.toList) (opsArith str.toList) s0 0).map
    (fun r => (r.1.pos, r.2))

/-- The `complete_parser` of the tests: the Pratt expression parser followed
by `end()` (`expr_parser().then_ignore(end())`), on the tuple engine. -/
def completeExpr (str : String) (fuel : Nat) : PRes Unit Expr :=
  match prattGoTE fuel (litAtomP str.toList) (opsExpr str.toList) s0 0 with
  | none => none
  | some (s1, some v) =>
    match endP str.toList s1 with
    | (s2, some _) => some (s2, some v)
    | (s2, none) => some (s2, none)
  | some (s1, none) => some (s1, none)

/-- Project a driver result to (final cursor, semantic outcome), dropping the
diagnostic slot. -/
def posVal (r : PRes ε α) : Option (Nat × Option α) :=
  r.map (fun x => (x.1.pos, x.2))

/-- Run the slice (Vec) engine on the arithmetic test parser. -/
def runArithS (str : String) (fuel : Nat) : Option (Nat × Option Int) :=
  (prattGoSE fuel (intAtomP str.toList) (opsArith str.toList) s0 0).map
    (fun r => (r.1.pos, r.2))

/-- An operator table with a postfix and an infix operator, used to compare
the two engines: postfix `!` with power 2 (fold multiplies by 10) and infix
`+` left-associative with power 0. -/
def opsBang (inp : List Char) : List (Op Unit Char Int) :=
  [ .postOp 2 (justP inp '!') (fun l _ => l * 10),
    .infOp (.left 0) (justP inp '+') (fun l _ r => l + r) ]

/-- Two operators bound to the same token `+` at the same precedence but with
different folds (`add` for the earlier-declared, `sub` for the later), to
observe the declaration-order tie-break. -/
def opsTie (inp : List Char) : List (Op Unit Char Expr) :=
  [ .infOp (.left 0) (justP inp '+') (fun l _ r => .add l r),
    .infOp (.left 0) (justP inp '+') (fun l _ r => .sub l r) ]

/-- A low-power prefix operator `§` (power 0) together with a higher-power
infix `*` (right-associative, power 1), to observe that prefix attempts are
not gated by `min_power`. -/
def opsConf (inp : List Char) : List (Op Unit Char Expr) :=
  [ .preOp 0 (justP inp '§') (fun _ r => .conf r),
    .infOp (.right 1) (justP inp '*') (fun l _ r => .mul l r) ]

/-- An atom sub-parser that always succeeds without consuming input. -/
def atomU : PFn Unit Unit := fun s => (s, some ())

/-- An atom sub-parser that always fails (consuming nothing). -/
def atomFail : PFn Unit Unit := fun s => (s, none)

/-- A single postfix operator whose token sub-parser succeeds without
consuming input. -/
def zwPost : List (Op Unit Unit Unit) :=
  [ .postOp 0 (fun s => (s, some ())) (fun l _ => l) ]

/-- A single prefix operator whose token sub-parser succeeds without
consuming input. -/
def zwPre : List (Op Unit Unit Unit) :=
  [ .preOp 0 (fun s => (s, some ())) (fun _ r => r) ]

/-- The tuple driver runs out of fuel at every fuel amount: the genuine
divergence of the embedded loop. -/
def DivergesT (atom : PFn ε α) (ops : List (Op ε τ α)) (s : PState ε)
    (minPower : Nat) : Prop :=
  ∀ fuel, prattGoTE fuel atom ops s minPower = none

/-- The slice driver runs out of fuel at every fuel amount. -/
def DivergesS (atom : PFn ε α) (ops : List (Op ε τ α)) (s : PState ε)
    (minPower : Nat) : Prop :=
  ∀ fuel, prattGoSE fuel atom ops s minPower = none

/-- A sub-parser is progressive up to `L` when every success strictly
advances the cursor and never moves it beyond `L`. -/
def Progressive (L : Nat) (p : PFn ε β) : Prop :=
  ∀ s s' v, p s = (s', some v) → s.pos < s'.pos ∧ s'.pos ≤ L

/-- The operator-token sub-parser owned by an operator. -/
def Op.tokP : Op ε τ α → PFn ε τ
  | .preOp _ opP _ => opP
  | .postOp _ opP _ => opP
  | .infOp _ opP _ => opP

/-! ### Check/Emit result mappings -/

/-- Erase the produced value of an Emit result, keeping success/failure. -/
def chkVal (r : Option α) : Option Unit := r.map (fun _ => ())

/-- Erase the produced value of an Emit driver result. -/
def chkRes (r : PRes ε α) : PResC ε := r.map (fun x => (x.1, chkVal x.2))

/-- Erase the values of an Emit `Result<O, O>`. -/
def chkExc : Except α α → Except Unit Unit
  | .ok _ => .ok ()
  | .error _ => .error ()

/-- Erase the value of an Emit operand-phase outcome. -/
def chkSumA : Sum (PState ε × α) (PState ε) → Sum (PState ε × Unit) (PState ε)
  | .inl (s, _) => .inl (s, ())
  | .inr s => .inr s

/-- Erase the values of an Emit scan outcome. -/
def chkSum2 : Sum (PState ε × α) (PState ε × α) →
    Sum (PState ε × Unit) (PState ε × Unit)
  | .inl (s, _) => .inl (s, ())
  | .inr (s, _) => .inr (s, ())

/-! ## Theorems -/

/-- C5: for every 16-bit power `p`, `left(p)` derives `left_power = 2p` and
`right_power = 2p+1`, `right(p)` derives `left_power = 2p+1` and
`right_power = 2p` — exactly, the `u32` computation cannot wrap; for equal
declared power a left-associative operator's `left_power` is one less than
its `right_power` and vice versa; and for `p2 < p1` every derived power of
`p1` strictly exceeds every derived power of `p2`. -/
theorem c5_binding_power_model (p p1 p2 : Nat) (hp : p < 65536)
    (h1 : p1 < 65536) (h2 : p2 < 65536) (hlt : p2 < p1) :
    Associativity.leftPower (.left p) = 2 * p ∧
    Associativity.rightPower (.left p) = 2 * p + 1 ∧
    Associativity.leftPower (.right p) = 2 * p + 1 ∧
    Associativity.rightPower (.right p) = 2 * p ∧
    Associativity.leftPower (.left p) + 1 = Associativity.rightPower (.left p) ∧
    Associativity.rightPower (.right p) + 1 = Associativity.leftPower (.right p) ∧
    (∀ a b : Associativity, (a = .left p1 ∨ a = .right p1) →
      (b = .left p2 ∨ b = .right p2) →
      b.leftPower < a.leftPower ∧ b.leftPower < a.rightPower ∧
      b.rightPower < a.leftPower ∧ b.rightPower < a.rightPower) := by
  refine ⟨?_, ?_, ?_, ?_, ?_, ?_, ?_⟩
  · simp only [Associativity.leftPower, U32]; omega
  · simp only [Associativity.rightPower, U32]; omega
  · simp only [Associativity.leftPower, U32]; omega
  · simp only [Associativity.rightPower, U32]; omega
  · simp only [Associativity.leftPower, Associativity.rightPower, U32]; omega
  · simp only [Associativity.leftPower, Associativity.rightPower, U32]; omega
  · rintro a b (rfl | rfl) (rfl | rfl) <;>
      simp only [Associativity.leftPower, Associativity.rightPower, U32] <;>
      omega

/-- Witness for C5 at concrete powers. -/
theorem c5_binding_power_model_witness :
    Associativity.leftPower (.left 7) = 14 :=
  (c5_binding_power_model 7 5 3 (by decide) (by decide) (by decide)
    (by decide)).1

/-- C3: with `+`,`-` left-associative power 0 and `*`,`/` left-associative
power 1 over an integer atom, the engine (both collection strategies) parses
"2 + 3 * 4" to 14 and "2 * 3 + 4" to 10, consuming the whole input. -/
theorem c3_precedence :
    runArithT "2 + 3 * 4" 16 = some (9, some 14) ∧
    runArithT "2 * 3 + 4" 16 = some (9, some 10) ∧
    runArithS "2 + 3 * 4" 16 = some (9, some 14) ∧
    runArithS "2 * 3 + 4" 16 = some (9, some 10) :=
  ⟨rfl, rfl, rfl, rfl⟩

/-- C1 (falsified by the code): the two engines do not agree.  On input
"1+2!" with a postfix `!` (power 2, fold multiplying by 10) declared before
an infix `+` (left, power 0), the tuple engine produces 21 with the cursor
at 4, while the Vec engine consumes the `!` token twice — its unlabeled
`continue` after a postfix success continues the postfix `for` loop instead
of restarting the outer loop, and the stale `pre_op` rewind hands the `!`
back to the caller — producing 210 with the cursor at 3. -/
theorem c1_engines_disagree :
    posVal (prattGoTE 16 (intAtomP "1+2!".toList)
      (opsBang "1+2!".toList) s0 0) = some (4, some 21) ∧
    posVal (prattGoSE 16 (intAtomP "1+2!".toList)
      (opsBang "1+2!".toList) s0 0) = some (3, some 210) :=
  ⟨rfl, rfl⟩

/-- C2 (falsified by the code for the Vec engine): on input "1!" with the
same table, the tuple engine restarts its continuation loop after the
successful postfix parse (fresh `pre_op`) and ends with the cursor at 2; in
`pratt_go_slice` the successful postfix attempt continues the `for` loop
with `pre_op` still at 1, and the final rewind discards the consumption of
`!`: the Vec engine ends with the cursor at 1 while still returning the
folded value. -/
theorem c2_slice_postfix_stale_checkpoint :
    posVal (prattGoTE 16 (intAtomP "1!".toList)
      (opsBang "1!".toList) s0 0) = some (2, some 10) ∧
    posVal (prattGoSE 16 (intAtomP "1!".toList)
      (opsBang "1!".toList) s0 0) = some (1, some 10) :=
  ⟨rfl, rfl⟩

/-- C4: `do_parse_infix` parses the right operand by recursing with the
operator's `right_power()` as the new threshold; concretely, with `*`,`/`
right-associative, "1*2*3" parses as `1*(2*3)`. -/
theorem c4_inf_recursion_uses_right_power (ε τ α : Type) :
    (∀ (assoc : Associativity) (opP : PFn ε τ) (fold : α → τ → α → α)
       (lhs : α) (s s1 : PState ε) (tok : τ) (f : Recur ε α),
       opP s = (s1, some tok) →
       doParseInfE (.infOp assoc opP fold) lhs s f =
         match f s1 assoc.rightPower with
         | none => none
         | some (s2, some rhs) => some (s2, .ok (fold lhs tok rhs))
         | some (s2, none) => some (s2, .error lhs)) ∧
    posVal (prattGoTE 16 (litAtomP "1*2*3".toList)
      (opsExpr "1*2*3".toList) s0 0)
      = some (5, some (.mul (.lit 1) (.mul (.lit 2) (.lit 3)))) := by
  constructor
  · intro assoc opP fold lhs s s1 tok f h
    simp only [doParseInfE, h]
  · rfl

/-- Witness for C4 at a concrete operator and continuation. -/
theorem c4_inf_recursion_uses_right_power_witness :
    doParseInfE
      (.infOp (.right 1) (fun x => (x, some 'o')) (fun l _ r => Expr.mul l r))
      (Expr.lit 1) s0 (fun x _ => some (x, some (Expr.lit 2))) =
      some (s0, .ok (Expr.mul (Expr.lit 1) (Expr.lit 2))) := by
  have h := (c4_inf_recursion_uses_right_power Unit Char Expr).1 (.right 1)
    (fun x => (x, some 'o')) (fun l _ r => Expr.mul l r) (Expr.lit 1) s0 s0
    'o' (fun x _ => some (x, some (Expr.lit 2))) rfl
  exact h.trans rfl

/-- C7: in each phase operators are attempted strictly in declaration order
and the first successful attempt wins (a failed attempt rewinds and the next
candidate is tried); concretely, with two operators bound to the same token
`+` the earlier-declared fold is the one applied, in both engines. -/
theorem c7_declaration_order (ε τ α : Type) :
    (∀ (op : Op ε τ α) (rest : List (Op ε τ α)) (f : Recur ε α)
       (preExpr : Nat) (s s1 : PState ε) (v : α),
       op.isPre = true → doParsePreE op s f = some (s1, some v) →
       prePhaseE f preExpr (op :: rest) s = some (.inl (s1, v))) ∧
    (∀ (op : Op ε τ α) (rest : List (Op ε τ α)) (f : Recur ε α)
       (preExpr : Nat) (s s1 : PState ε),
       op.isPre = true → doParsePreE op s f = some (s1, none) →
       prePhaseE f preExpr (op :: rest) s =
         prePhaseE f preExpr rest (rewind preExpr s1)) ∧
    (∀ (op : Op ε τ α) (rest : List (Op ε τ α)) (mp preOp : Nat)
       (lhs out : α) (s s1 : PState ε),
       op.isPost = true → mp ≤ op.assoc.rightPower →
       doParsePostE op lhs s = (s1, .ok out) →
       postScanTE mp preOp (op :: rest) lhs s = .inl (s1, out)) ∧
    (∀ (op : Op ε τ α) (rest : List (Op ε τ α)) (mp preOp : Nat)
       (lhs out : α) (s s1 : PState ε),
       op.isPost = true → mp ≤ op.assoc.rightPower →
       doParsePostE op lhs s = (s1, .ok out) →
       postScanSE mp preOp (op :: rest) lhs s = postScanSE mp preOp rest out s1) ∧
    (∀ (op : Op ε τ α) (rest : List (Op ε τ α)) (f : Recur ε α)
       (mp preOp : Nat) (lhs out : α) (s s1 : PState ε),
       op.isInf = true → mp ≤ op.assoc.leftPower →
       doParseInfE op lhs s f = some (s1, .ok out) →
       infScanE f mp preOp (op :: rest) lhs s = some (.inl (s1, out))) ∧
    posVal (prattGoTE 16 (litAtomP "1+2".toList) (opsTie "1+2".toList) s0 0)
      = some (3, some (.add (.lit 1) (.lit 2))) ∧
    posVal (prattGoSE 16 (litAtomP "1+2".toList) (opsTie "1+2".toList) s0 0)
      = some (3, some (.add (.lit 1) (.lit 2))) := by
  refine ⟨?_, ?_, ?_, ?_, ?_, rfl, rfl⟩
  · intro op rest f preExpr s s1 v hpre h
    simp only [prePhaseE, hpre, if_true, h]
  · intro op rest f preExpr s s1 hpre h
    simp only [prePhaseE, hpre, if_true, h]
  · intro op rest mp preOp lhs out s s1 hpost hge h
    simp only [postScanTE, hpost, true_and, hge, if_true, h]
  · intro op rest mp preOp lhs out s s1 hpost hge h
    simp only [postScanSE, hpost, true_and, hge, if_true, h]
  · intro op rest f mp preOp lhs out s s1 hinf hge h
    simp only [infScanE, hinf, true_and, hge, if_true, h]

/-- Witness for C7: the head operator's success is adopted regardless of the
rest of the collection. -/
theorem c7_declaration_order_witness :
    prePhaseE (fun x _ => some (x, some (Expr.lit 5))) 0
      [(.preOp 0 (fun x => (x, some ())) (fun _ r => r) : Op Unit Unit Expr)]
      s0 = some (.inl (s0, Expr.lit 5)) :=
  (c7_declaration_order Unit Unit Expr).1
    (.preOp 0 (fun x => (x, some ())) (fun _ r => r)) []
    (fun x _ => some (x, some (Expr.lit 5))) 0 s0 s0 (Expr.lit 5) rfl rfl

/-- C10: prefix operators are attempted in the operand phase with no
comparison against `min_power` (the threshold only reaches the continuation
loop), postfix attempts are gated by `right_power() >= min_power` and infix
attempts by `left_power() >= min_power`; concretely a power-0 prefix still
matches inside the right operand of a higher-power infix operator. -/
theorem c10_threshold_gating (ε τ α : Type) :
    (∀ (fuel : Nat) (atom : PFn ε α) (ops : List (Op ε τ α)) (s : PState ε)
       (mp : Nat),
       prattGoTE (fuel + 1) atom ops s mp =
         match prePhaseE (fun s1 m => prattGoTE fuel atom ops s1 m) s.pos
             ops s with
         | none => none
         | some (.inl (s1, lhs)) =>
           prattLoopTE fuel (fun s1 m => prattGoTE fuel atom ops s1 m) ops
             mp lhs s1
         | some (.inr s1) =>
           match atom s1 with
           | (s2, some lhs) =>
             prattLoopTE fuel (fun s1 m => prattGoTE fuel atom ops s1 m) ops
               mp lhs s2
           | (s2, none) => some (s2, none)) ∧
    (∀ (fuel : Nat) (atom : PFn ε α) (ops : List (Op ε τ α)) (s : PState ε)
       (mp : Nat),
       prattGoSE (fuel + 1) atom ops s mp =
         match prePhaseE (fun s1 m => prattGoSE fuel atom ops s1 m) s.pos
             ops s with
         | none => none
         | some (.inl (s1, lhs)) =>
           prattLoopSE fuel (fun s1 m => prattGoSE fuel atom ops s1 m) ops
             mp lhs s1
         | some (.inr s1) =>
           match atom s1 with
           | (s2, some lhs) =>
             prattLoopSE fuel (fun s1 m => prattGoSE fuel atom ops s1 m) ops
               mp lhs s2
           | (s2, none) => some (s2, none)) ∧
    (∀ (op : Op ε τ α) (rest : List (Op ε τ α)) (mp preOp : Nat) (lhs : α)
       (s : PState ε), op.assoc.rightPower < mp →
       postScanTE mp preOp (op :: rest) lhs s =
         postScanTE mp preOp rest lhs s) ∧
    (∀ (op : Op ε τ α) (rest : List (Op ε τ α)) (mp preOp : Nat) (lhs : α)
       (s : PState ε), op.assoc.rightPower < mp →
       postScanSE mp preOp (op :: rest) lhs s =
         postScanSE mp preOp rest lhs s) ∧
    (∀ (op : Op ε τ α) (rest : List (Op ε τ α)) (f : Recur ε α)
       (mp preOp : Nat) (lhs : α) (s : PState ε),
       op.assoc.leftPower < mp →
       infScanE f mp preOp (op :: rest) lhs s =
         infScanE f mp preOp rest lhs s) ∧
    posVal (prattGoTE 16 (litAtomP "1*§2".toList) (opsConf "1*§2".toList)
      s0 0) = some (4, some (.mul (.lit 1) (.conf (.lit 2)))) := by
  refine ⟨fun _ _ _ _ _ => rfl, fun _ _ _ _ _ => rfl, ?_, ?_, ?_, rfl⟩
  · intro op rest mp preOp lhs s hlt
    simp only [postScanTE]
    rw [if_neg]
    intro hc
    exact absurd hc.2 (by omega)
  · intro op rest mp preOp lhs s hlt
    simp only [postScanSE]
    rw [if_neg]
    intro hc
    exact absurd hc.2 (by omega)
  · intro op rest f mp preOp lhs s hlt
    simp only [infScanE]
    rw [if_neg]
    intro hc
    exact absurd hc.2 (by omega)

/-- Witness for C10: a power-0 postfix operator is skipped under threshold 5. -/
theorem c10_threshold_gating_witness :
    postScanTE 5 0
      [(.postOp 0 (fun x => (x, some ())) (fun l _ => l) : Op Unit Unit Expr)]
      (Expr.lit 3) s0 = .inr (s0, Expr.lit 3) :=
  (c10_threshold_gating Unit Unit Expr).2.2.1
    (.postOp 0 (fun x => (x, some ())) (fun l _ => l)) [] 5 0 (Expr.lit 3) s0
    (by decide)

/-- The tuple continuation loop never produces a parse failure: once a left
value exists, the driver can only succeed (or run out of fuel). -/
theorem loopT_no_failure (fuel : Nat) (recur : Recur ε α)
    (ops : List (Op ε τ α)) (mp : Nat) :
    ∀ (lhs : α) (s s' : PState ε),
      prattLoopTE fuel recur ops mp lhs s ≠ some (s', none) := by
  induction fuel with
  | zero => intro lhs s s' h; exact Option.noConfusion h
  | succ f ih =>
    intro lhs s s' h
    simp only [prattLoopTE] at h
    split at h
    · exact ih _ _ _ h
    · split at h
      · exact Option.noConfusion h
      · exact ih _ _ _ h
      · injection h with h1
        exact Option.noConfusion (congrArg Prod.snd h1)

/-- The slice continuation loop never produces a parse failure. -/
theorem loopS_no_failure (fuel : Nat) (recur : Recur ε α)
    (ops : List (Op ε τ α)) (mp : Nat) :
    ∀ (lhs : α) (s s' : PState ε),
      prattLoopSE fuel recur ops mp lhs s ≠ some (s', none) := by
  induction fuel with
  | zero => intro lhs s s' h; exact Option.noConfusion h
  | succ f ih =>
    intro lhs s s' h
    simp only [prattLoopSE] at h
    split at h
    · exact Option.noConfusion h
    · exact ih _ _ _ h
    · injection h with h1
      exact Option.noConfusion (congrArg Prod.snd h1)

/-- C6: a whole parse fails iff the very first operand position fails (no
prefix succeeds and the atom fails), in which case the atom's failure —
final state and recorded diagnostic — propagates unchanged; a matched infix
token whose right operand fails, and a failed postfix token, return the
original `lhs` unchanged as a backtrackable no-match; concretely "" fails at
offset 0 and "1+" fails at offset 2 with no partial value. -/
theorem c6_failure_propagation (ε τ α : Type) :
    (∀ (fuel : Nat) (atom : PFn ε α) (ops : List (Op ε τ α))
       (s s' : PState ε) (mp : Nat),
       prattGoTE (fuel + 1) atom ops s mp = some (s', none) ↔
       ∃ s1, prePhaseE (fun s2 m => prattGoTE fuel atom ops s2 m) s.pos ops s
           = some (.inr s1) ∧ atom s1 = (s', none)) ∧
    (∀ (fuel : Nat) (atom : PFn ε α) (ops : List (Op ε τ α))
       (s s' : PState ε) (mp : Nat),
       prattGoSE (fuel + 1) atom ops s mp = some (s', none) ↔
       ∃ s1, prePhaseE (fun s2 m => prattGoSE fuel atom ops s2 m) s.pos ops s
           = some (.inr s1) ∧ atom s1 = (s', none)) ∧
    (∀ (assoc : Associativity) (opP : PFn ε τ) (fold : α → τ → α → α)
       (lhs : α) (s s1 s2 : PState ε) (tok : τ) (f : Recur ε α),
       opP s = (s1, some tok) → f s1 assoc.rightPower = some (s2, none) →
       doParseInfE (.infOp assoc opP fold) lhs s f = some (s2, .error lhs)) ∧
    (∀ (pw : Nat) (opP : PFn ε τ) (fold : α → τ → α) (lhs : α)
       (s s1 : PState ε),
       opP s = (s1, none) →
       doParsePostE (.postOp pw opP fold) lhs s = (s1, .error lhs)) ∧
    completeExpr "" 16 = some (⟨0, some (0, ())⟩, none) ∧
    completeExpr "1+" 16 = some (⟨1, some (2, ())⟩, none) := by
  refine ⟨?_, ?_, ?_, ?_, rfl, rfl⟩
  · intro fuel atom ops s s' mp
    constructor
    · intro h
      simp only [prattGoTE] at h
      split at h
      · exact Option.noConfusion h
      · exact absurd h (loopT_no_failure _ _ _ _ _ _ _)
      · next s1 hpp =>
          split at h
          · exact absurd h (loopT_no_failure _ _ _ _ _ _ _)
          · next s2 ha =>
              injection h with h1
              injection h1 with h2 h3
              exact ⟨s1, hpp, h2 ▸ ha⟩
    · rintro ⟨s1, h1, h2⟩
      simp only [prattGoTE, h1, h2]
  · intro fuel atom ops s s' mp
    constructor
    · intro h
      simp only [prattGoSE] at h
      split at h
      · exact Option.noConfusion h
      · exact absurd h (loopS_no_failure _ _ _ _ _ _ _)
      · next s1 hpp =>
          split at h
          · exact absurd h (loopS_no_failure _ _ _ _ _ _ _)
          · next s2 ha =>
              injection h with h1
              injection h1 with h2 h3
              exact ⟨s1, hpp, h2 ▸ ha⟩
    · rintro ⟨s1, h1, h2⟩
      simp only [prattGoSE, h1, h2]
  · intro assoc opP fold lhs s s1 s2 tok f h1 h2
    simp only [doParseInfE, h1, h2]
  · intro pw opP fold lhs s s1 h
    simp only [doParsePostE, h]

/-- Witness for C6: a matched infix token whose right operand fails returns
the original left value unchanged. -/
theorem c6_failure_propagation_witness :
    doParseInfE
      (.infOp (.left 0) (fun x => (x, some '+')) (fun l _ r => Expr.add l r))
      (Expr.lit 1) s0 (fun x _ => some (x, none)) =
      some (s0, .error (Expr.lit 1)) :=
  (c6_failure_propagation Unit Char Expr).2.2.1 (.left 0)
    (fun x => (x, some '+')) (fun l _ r => Expr.add l r) (Expr.lit 1) s0 s0
    s0 '+' (fun x _ => some (x, none)) rfl rfl

/-- Check/Emit agreement for `do_parse_prefix`. -/
theorem ce_pre (op : Op ε τ α) (s : PState ε) (fC : RecurC ε)
    (fE : Recur ε α) (Hf : ∀ s1 mp, fC s1 mp = chkRes (fE s1 mp)) :
    doParsePreC op s fC = chkRes (doParsePreE op s fE) := by
  cases op with
  | preOp pw opP fold =>
    simp only [doParsePreC, doParsePreE]
    rcases h : opP s with ⟨s1, _ | tok⟩
    · simp [h, chkRes, chkVal]
    · simp only [h, Hf]
      rcases hE : fE s1 (Associativity.leftPower (.left pw)) with _ | ⟨s2, _ | rhs⟩ <;>
        simp [hE, chkRes, chkVal]
  | postOp pw opP fold => simp [doParsePreC, doParsePreE, chkRes, chkVal]
  | infOp a opP fold => simp [doParsePreC, doParsePreE, chkRes, chkVal]

/-- Check/Emit agreement for `do_parse_postfix`. -/
theorem ce_post (op : Op ε τ α) (lhs : α) (s : PState ε) :
    doParsePostC op () s =
      ((doParsePostE op lhs s).1, chkExc (doParsePostE op lhs s).2) := by
  cases op with
  | postOp pw opP fold =>
    simp only [doParsePostC, doParsePostE]
    rcases h : opP s with ⟨s1, _ | tok⟩ <;> simp [h, chkExc]
  | preOp pw opP fold => simp [doParsePostC, doParsePostE, chkExc]
  | infOp a opP fold => simp [doParsePostC, doParsePostE, chkExc]

/-- Check/Emit agreement for `do_parse_infix`. -/
theorem ce_inf (op : Op ε τ α) (lhs : α) (s : PState ε) (fC : RecurC ε)
    (fE : Recur ε α) (Hf : ∀ s1 mp, fC s1 mp = chkRes (fE s1 mp)) :
    doParseInfC op () s fC =
      (doParseInfE op lhs s fE).map (fun p => (p.1, chkExc p.2)) := by
  cases op with
  | infOp a opP fold =>
    simp only [doParseInfC, doParseInfE]
    rcases h : opP s with ⟨s1, _ | tok⟩
    · simp [h, chkExc]
    · simp only [h, Hf]
      rcases hE : fE s1 a.rightPower with _ | ⟨s2, _ | rhs⟩ <;>
        simp [hE, chkRes, chkVal, chkExc]
  | preOp pw opP fold => simp [doParseInfC, doParseInfE, chkExc]
  | postOp pw opP fold => simp [doParseInfC, doParseInfE, chkExc]

/-- Check/Emit agreement for the operand phase. -/
theorem ce_prePhase (fC : RecurC ε) (fE : Recur ε α)
    (Hf : ∀ s1 mp, fC s1 mp = chkRes (fE s1 mp)) (preExpr : Nat) :
    ∀ (ops : List (Op ε τ α)) (s : PState ε),
      prePhaseC fC preExpr ops s = (prePhaseE fE preExpr ops s).map chkSumA := by
  intro ops
  induction ops with
  | nil => intro s; simp [prePhaseC, prePhaseE, chkSumA]
  | cons op rest ih =>
    intro s
    simp only [prePhaseC, prePhaseE]
    by_cases hp : op.isPre = true
    · simp only [hp, if_true]
      rw [ce_pre op s fC fE Hf]
      rcases hE : doParsePreE op s fE with _ | ⟨s1, _ | v⟩
      · simp only [hE, chkRes, Option.map]
      · simp only [hE, chkRes, chkVal]
        simpa using ih (rewind preExpr s1)
      · simp [hE, chkRes, chkVal, chkSumA]
    · simp only [hp, if_false]
      exact ih s

/-- Check/Emit agreement for the tuple driver's postfix section. -/
theorem ce_postScanT (mp preOp : Nat) :
    ∀ (ops : List (Op ε τ α)) (lhs : α) (s : PState ε),
      postScanTC mp preOp ops () s = chkSum2 (postScanTE mp preOp ops lhs s) := by
  intro ops
  induction ops with
  | nil => intro lhs s; simp [postScanTC, postScanTE, chkSum2]
  | cons op rest ih =>
    intro lhs s
    simp only [postScanTC, postScanTE]
    by_cases hg : op.isPost = true ∧ mp ≤ op.assoc.rightPower
    · simp only [if_pos hg]
      rw [ce_post op lhs s]
      rcases hE : doParsePostE op lhs s with ⟨s1, out | out⟩
      · simp only [hE, chkExc]
        exact ih out (rewind preOp s1)
      · simp only [hE, chkExc, chkSum2]
    · simp only [if_neg hg]
      exact ih lhs s

/-- Check/Emit agreement for the slice driver's postfix section. -/
theorem ce_postScanS (mp preOp : Nat) :
    ∀ (ops : List (Op ε τ α)) (lhs : α) (s : PState ε),
      postScanSC mp preOp ops () s = ((postScanSE mp preOp ops lhs s).1, ()) := by
  intro ops
  induction ops with
  | nil => intro lhs s; simp [postScanSC, postScanSE]
  | cons op rest ih =>
    intro lhs s
    simp only [postScanSC, postScanSE]
    by_cases hg : op.isPost = true ∧ mp ≤ op.assoc.rightPower
    · simp only [if_pos hg]
      rw [ce_post op lhs s]
      rcases hE : doParsePostE op lhs s with ⟨s1, out | out⟩
      · simp only [hE, chkExc]
        exact ih out (rewind preOp s1)
      · simp only [hE, chkExc]
        exact ih out s1
    · simp only [if_neg hg]
      exact ih lhs s

/-- Check/Emit agreement for the infix section. -/
theorem ce_infScan (fC : RecurC ε) (fE : Recur ε α)
    (Hf : ∀ s1 mp, fC s1 mp = chkRes (fE s1 mp)) (mp preOp : Nat) :
    ∀ (ops : List (Op ε τ α)) (lhs : α) (s : PState ε),
      infScanC fC mp preOp ops () s =
        (infScanE fE mp preOp ops lhs s).map chkSum2 := by
  intro ops
  induction ops with
  | nil => intro lhs s; simp [infScanC, infScanE, chkSum2]
  | cons op rest ih =>
    intro lhs s
    simp only [infScanC, infScanE]
    by_cases hg : op.isInf = true ∧ mp ≤ op.assoc.leftPower
    · simp only [if_pos hg]
      rw [ce_inf op lhs s fC fE Hf]
      rcases hE : doParseInfE op lhs s fE with _ | ⟨s1, out | out⟩
      · simp only [hE, Option.map]
      · simp only [hE, chkExc]
        simpa using ih out (rewind preOp s1)
      · simp [hE, chkExc, chkSum2]
    · simp only [if_neg hg]
      exact ih lhs s

/-- Check/Emit agreement for the tuple continuation loop. -/
theorem ce_loopT (fC : RecurC ε) (fE : Recur ε α)
    (Hf : ∀ s1 mp, fC s1 mp = chkRes (fE s1 mp)) (ops : List (Op ε τ α))
    (mp : Nat) :
    ∀ (fuel : Nat) (lhs : α) (s : PState ε),
      prattLoopTC fuel fC ops mp () s = chkRes (prattLoopTE fuel fE ops mp lhs s) := by
  intro fuel
  induction fuel with
  | zero => intro lhs s; rfl
  | succ f ih =>
    intro lhs s
    simp only [prattLoopTC, prattLoopTE]
    rw [ce_postScanT mp s.pos ops lhs s]
    rcases hps : postScanTE mp s.pos ops lhs s with ⟨s1, lhs1⟩ | ⟨s1, lhs1⟩ <;>
      simp only [hps, chkSum2]
    · exact ih lhs1 s1
    · rw [ce_infScan fC fE Hf mp s.pos ops lhs1 s1]
      rcases his : infScanE fE mp s.pos ops lhs1 s1 with _ | (⟨s2, lhs2⟩ | ⟨s2, lhs2⟩) <;>
        simp only [his, Option.map, chkSum2]
      · rfl
      · exact ih lhs2 s2
      · simp [chkRes, chkVal]

/-- Check/Emit agreement for the slice continuation loop. -/
theorem ce_loopS (fC : RecurC ε) (fE : Recur ε α)
    (Hf : ∀ s1 mp, fC s1 mp = chkRes (fE s1 mp)) (ops : List (Op ε τ α))
    (mp : Nat) :
    ∀ (fuel : Nat) (lhs : α) (s : PState ε),
      prattLoopSC fuel fC ops mp () s = chkRes (prattLoopSE fuel fE ops mp lhs s) := by
  intro fuel
  induction fuel with
  | zero => intro lhs s; rfl
  | succ f ih =>
    intro lhs s
    simp only [prattLoopSC, prattLoopSE]
    rw [ce_postScanS mp s.pos ops lhs s]
    rw [ce_infScan fC fE Hf mp s.pos ops (postScanSE mp s.pos ops lhs s).2
      (postScanSE mp s.pos ops lhs s).1]
    rcases his : infScanE fE mp s.pos ops (postScanSE mp s.pos ops lhs s).2
        (postScanSE mp s.pos ops lhs s).1 with _ | (⟨s2, lhs2⟩ | ⟨s2, lhs2⟩) <;>
      simp only [his, Option.map, chkSum2]
    · rfl
    · exact ih lhs2 s2
    · simp [chkRes, chkVal]

/-- Check/Emit agreement for the tuple driver. -/
theorem ce_goT (atom : PFn ε α) (ops : List (Op ε τ α)) :
    ∀ (fuel : Nat) (s : PState ε) (mp : Nat),
      prattGoTC fuel atom ops s mp = chkRes (prattGoTE fuel atom ops s mp) := by
  intro fuel
  induction fuel with
  | zero => intro s mp; rfl
  | succ f ih =>
    intro s mp
    have Hf : ∀ s1 m, (fun s2 m2 => prattGoTC f atom ops s2 m2) s1 m =
        chkRes ((fun s2 m2 => prattGoTE f atom ops s2 m2) s1 m) :=
      fun s1 m => ih s1 m
    simp only [prattGoTC, prattGoTE]
    rw [ce_prePhase _ _ Hf s.pos ops s]
    rcases hE : prePhaseE (fun s1 mp1 => prattGoTE f atom ops s1 mp1) s.pos ops s
        with _ | (⟨s1, lhs⟩ | s1) <;> simp only [hE, Option.map, chkSumA]
    · rfl
    · exact ce_loopT _ _ Hf ops mp f lhs s1
    · rcases ha : atom s1 with ⟨s2, _ | v⟩ <;> simp only [ha]
      · simp [chkRes, chkVal]
      · exact ce_loopT _ _ Hf ops mp f v s2

/-- Check/Emit agreement for the slice driver. -/
theorem ce_goS (atom : PFn ε α) (ops : List (Op ε τ α)) :
    ∀ (fuel : Nat) (s : PState ε) (mp : Nat),
      prattGoSC fuel atom ops s mp = chkRes (prattGoSE fuel atom ops s mp) := by
  intro fuel
  induction fuel with
  | zero => intro s mp; rfl
  | succ f ih =>
    intro s mp
    have Hf : ∀ s1 m, (fun s2 m2 => prattGoSC f atom ops s2 m2) s1 m =
        chkRes ((fun s2 m2 => prattGoSE f atom ops s2 m2) s1 m) :=
      fun s1 m => ih s1 m
    simp only [prattGoSC, prattGoSE]
    rw [ce_prePhase _ _ Hf s.pos ops s]
    rcases hE : prePhaseE (fun s1 mp1 => prattGoSE f atom ops s1 mp1) s.pos ops s
        with _ | (⟨s1, lhs⟩ | s1) <;> simp only [hE, Option.map, chkSumA]
    · rfl
    · exact ce_loopS _ _ Hf ops mp f lhs s1
    · rcases ha : atom s1 with ⟨s2, _ | v⟩ <;> simp only [ha]
      · simp [chkRes, chkVal]
      · exact ce_loopS _ _ Hf ops mp f v s2

/-- C8: for every engine, every operator collection, every input state and
every fuel amount, the Check-mode run of the driver succeeds iff the
Emit-mode run succeeds, with identical final state (cursor and diagnostics):
the Check result is exactly the Emit result with the value erased. -/
theorem c8_check_emit (ε τ α : Type) (fuel : Nat) (atom : PFn ε α)
    (ops : List (Op ε τ α)) (s : PState ε) (mp : Nat) :
    prattGoTC fuel atom ops s mp = chkRes (prattGoTE fuel atom ops s mp) ∧
    prattGoSC fuel atom ops s mp = chkRes (prattGoSE fuel atom ops s mp) :=
  ⟨ce_goT atom ops fuel s mp, ce_goS atom ops fuel s mp⟩

/-- With a zero-width postfix operator the tuple continuation loop consumes
any amount of fuel at any state. -/
theorem zw_loopT (recur : Recur Unit Unit) :
    ∀ (g : Nat) (s : PState Unit), prattLoopTE g recur zwPost 0 () s = none := by
  intro g
  induction g with
  | zero => intro s; rfl
  | succ f ih =>
    intro s
    simp only [prattLoopTE]
    have h : postScanTE 0 s.pos zwPost () s = .inl (s, ()) := rfl
    rw [h]
    exact ih s

/-- With a zero-width postfix operator the tuple driver diverges. -/
theorem zw_goT : ∀ (fuel : Nat) (s : PState Unit),
    prattGoTE fuel atomU zwPost s 0 = none := by
  intro fuel
  cases fuel with
  | zero => intro s; rfl
  | succ f =>
    intro s
    simp only [prattGoTE]
    have h : prePhaseE (fun s1 mp => prattGoTE f atomU zwPost s1 mp) s.pos
        zwPost s = some (.inr s) := rfl
    rw [h]
    show prattLoopTE f (fun s1 mp => prattGoTE f atomU zwPost s1 mp) zwPost
      0 () s = none
    exact zw_loopT _ f s

/-- With a zero-width prefix operator the slice driver diverges (the operand
phase recurses at the same state forever). -/
theorem zw_goS : ∀ (fuel : Nat) (s : PState Unit),
    prattGoSE fuel atomU zwPre s 0 = none := by
  intro fuel
  induction fuel with
  | zero => intro s; rfl
  | succ f ih =>
    intro s
    simp only [prattGoSE]
    have hlp : Associativity.leftPower (.left 0) = 0 := rfl
    have ih2 : prattGoSE f atomU
        [(.preOp 0 (fun x => (x, some ())) (fun _ r => r) : Op Unit Unit Unit)]
        s 0 = none := ih s
    have h : prePhaseE (fun s1 mp => prattGoSE f atomU zwPre s1 mp) s.pos
        zwPre s = none := by
      simp [prePhaseE, zwPre, doParsePreE, Op.isPre, hlp, ih2]
    rw [h]

/-- C9 counterexample: the claim "every call to the driver terminates, for
every operator collection, including token sub-parsers succeeding without
consuming input" is false: a zero-width postfix operator makes the tuple
driver diverge and a zero-width prefix operator makes the slice driver
diverge. -/
theorem c9_counterexample : DivergesT atomU zwPost s0 0 ∧
    DivergesS atomU zwPre s0 0 :=
  ⟨fun fuel => zw_goT fuel s0, fun fuel => zw_goS fuel s0⟩

/-- A successful prefix attempt moves strictly past the token and stays
within `L`, when the token parser is progressive and the recursion preserves
positions. -/
theorem doPre_some_pos (L : Nat) (op : Op ε τ α) (s : PState ε)
    (f : Recur ε α) (hop : Progressive L op.tokP)
    (hf : ∀ s2 mp s3 v, f s2 mp = some (s3, some v) →
      s2.pos < s3.pos ∧ s3.pos ≤ L) :
    ∀ s1 v, doParsePreE op s f = some (s1, some v) →
      s.pos < s1.pos ∧ s1.pos ≤ L := by
  intro s1 v h
  cases op with
  | preOp pw opP fold =>
    simp only [doParsePreE] at h
    rcases htok : opP s with ⟨st, _ | tok⟩ <;> simp only [htok] at h
    · simp at h
    · rcases hrec : f st (Associativity.leftPower (.left pw)) with
        _ | ⟨s2, _ | rhs⟩ <;> simp only [hrec] at h
      · exact Option.noConfusion h
      · simp at h
      · have hA := hop s st tok htok
        have hB := hf st _ s2 rhs hrec
        have h2 : s2 = s1 := by injection h with h1; injection h1
        subst h2
        omega
  | postOp pw opP fold => simp [doParsePreE] at h
  | infOp a opP fold => simp [doParsePreE] at h

/-- A successful postfix attempt moves strictly past the token and stays
within `L`. -/
theorem doPost_ok_pos (L : Nat) (op : Op ε τ α) (lhs : α) (s : PState ε)
    (hop : Progressive L op.tokP) :
    ∀ s1 out, doParsePostE op lhs s = (s1, .ok out) →
      s.pos < s1.pos ∧ s1.pos ≤ L := by
  intro s1 out h
  cases op with
  | postOp pw opP fold =>
    simp only [doParsePostE] at h
    rcases htok : opP s with ⟨st, _ | tok⟩ <;> simp only [htok] at h
    · simp at h
    · have h2 : st = s1 := by injection h with h1 h2
      subst h2
      exact hop s st tok htok
  | preOp pw opP fold => simp [doParsePostE] at h
  | infOp a opP fold => simp [doParsePostE] at h

/-- A successful infix attempt moves strictly past the token and the right
operand and stays within `L`. -/
theorem doInf_ok_pos (L : Nat) (op : Op ε τ α) (lhs : α) (s : PState ε)
    (f : Recur ε α) (hop : Progressive L op.tokP)
    (hf : ∀ s2 mp s3 v, f s2 mp = some (s3, some v) →
      s2.pos < s3.pos ∧ s3.pos ≤ L) :
    ∀ s1 out, doParseInfE op lhs s f = some (s1, .ok out) →
      s.pos < s1.pos ∧ s1.pos ≤ L := by
  intro s1 out h
  cases op with
  | infOp a opP fold =>
    simp only [doParseInfE] at h
    rcases htok : opP s with ⟨st, _ | tok⟩ <;> simp only [htok] at h
    · simp at h
    · rcases hrec : f st a.rightPower with _ | ⟨s2, _ | rhs⟩ <;>
        simp only [hrec] at h
      · exact Option.noConfusion h
      · simp at h
      · have hA := hop s st tok htok
        have hB := hf st _ s2 rhs hrec
        have h2 : s2 = s1 := by injection h with h1; injection h1
        subst h2
        omega
  | preOp pw opP fold => simp [doParseInfE] at h
  | postOp pw opP fold => simp [doParseInfE] at h

/-- A prefix attempt cannot run out of fuel when the recursion cannot at any
strictly advanced in-bounds state. -/
theorem doPre_not_none (L : Nat) (op : Op ε τ α) (s : PState ε)
    (f : Recur ε α) (hop : Progressive L op.tokP)
    (hf : ∀ s2 mp, s.pos < s2.pos → s2.pos ≤ L → f s2 mp ≠ none) :
    doParsePreE op s f ≠ none := by
  intro h
  cases op with
  | preOp pw opP fold =>
    simp only [doParsePreE] at h
    rcases htok : opP s with ⟨st, _ | tok⟩ <;> simp only [htok] at h
    · exact Option.noConfusion h
    · have hA := hop s st tok htok
      rcases hrec : f st (Associativity.leftPower (.left pw)) with
          _ | ⟨s2, _ | rhs⟩ <;> simp only [hrec] at h
      · exact hf st _ hA.1 hA.2 hrec
      · exact Option.noConfusion h
      · exact Option.noConfusion h
  | postOp pw opP fold => simp [doParsePreE] at h
  | infOp a opP fold => simp [doParsePreE] at h

/-- An infix attempt cannot run out of fuel when the recursion cannot at any
strictly advanced in-bounds state. -/
theorem doInf_not_none (L : Nat) (op : Op ε τ α) (lhs : α) (s : PState ε)
    (f : Recur ε α) (hop : Progressive L op.tokP)
    (hf : ∀ s2 mp, s.pos < s2.pos → s2.pos ≤ L → f s2 mp ≠ none) :
    doParseInfE op lhs s f ≠ none := by
  intro h
  cases op with
  | infOp a opP fold =>
    simp only [doParseInfE] at h
    rcases htok : opP s with ⟨st, _ | tok⟩ <;> simp only [htok] at h
    · exact Option.noConfusion h
    · have hA := hop s st tok htok
      rcases hrec : f st a.rightPower with _ | ⟨s2, _ | rhs⟩ <;>
        simp only [hrec] at h
      · exact hf st _ hA.1 hA.2 hrec
      · exact Option.noConfusion h
      · exact Option.noConfusion h
  | preOp pw opP fold => simp [doParseInfE] at h
  | postOp pw opP fold => simp [doParseInfE] at h

/-- An all-failed operand phase leaves the cursor at `pre_expr`. -/
theorem prePhase_inr_pos (f : Recur ε α) (preExpr : Nat) :
    ∀ (ops' : List (Op ε τ α)) (s : PState ε), s.pos = preExpr →
      ∀ s1, prePhaseE f preExpr ops' s = some (.inr s1) → s1.pos = preExpr := by
  intro ops'
  induction ops' with
  | nil =>
    intro s hs s1 h
    simp only [prePhaseE] at h
    cases h
    exact hs
  | cons op rest ih =>
    intro s hs s1 h
    simp only [prePhaseE] at h
    by_cases hp : op.isPre = true
    · simp only [hp, if_true] at h
      rcases hd : doParsePreE op s f with _ | ⟨s2, _ | v⟩ <;> simp only [hd] at h
      · exact Option.noConfusion h
      · exact ih _ rfl s1 h
      · simp at h
    · simp only [hp, if_false] at h
      exact ih s hs s1 h

/-- A successful operand phase via a prefix operator lands strictly past
`pre_expr` and within `L`. -/
theorem prePhase_inl_pos (L : Nat) (f : Recur ε α) (preExpr : Nat)
    (hf : ∀ s2 mp s3 v, f s2 mp = some (s3, some v) →
      s2.pos < s3.pos ∧ s3.pos ≤ L) :
    ∀ (ops' : List (Op ε τ α)), (∀ op ∈ ops', Progressive L op.tokP) →
      ∀ (s : PState ε), s.pos = preExpr →
      ∀ s1 v, prePhaseE f preExpr ops' s = some (.inl (s1, v)) →
        preExpr < s1.pos ∧ s1.pos ≤ L := by
  intro ops'
  induction ops' with
  | nil => intro _ s hs s1 v h; simp [prePhaseE] at h
  | cons op rest ih =>
    intro hops s hs s1 v h
    simp only [prePhaseE] at h
    by_cases hp : op.isPre = true
    · simp only [hp, if_true] at h
      rcases hd : doParsePreE op s f with _ | ⟨s2, _ | w⟩ <;> simp only [hd] at h
      · exact Option.noConfusion h
      · exact ih (fun o ho => hops o (List.mem_cons_of_mem _ ho)) _ rfl s1 v h
      · have hpos := doPre_some_pos L op s f
          (hops op (List.mem_cons_self op rest)) hf s2 w hd
        cases h
        omega
    · simp only [hp, if_false] at h
      exact ih (fun o ho => hops o (List.mem_cons_of_mem _ ho)) s hs s1 v h

/-- The operand phase cannot run out of fuel when the recursion cannot at
any state strictly past `pre_expr` and within `L`. -/
theorem prePhase_not_none (L : Nat) (f : Recur ε α) (preExpr : Nat)
    (hf : ∀ s2 mp, preExpr < s2.pos → s2.pos ≤ L → f s2 mp ≠ none) :
    ∀ (ops' : List (Op ε τ α)), (∀ op ∈ ops', Progressive L op.tokP) →
      ∀ (s : PState ε), s.pos = preExpr →
      prePhaseE f preExpr ops' s ≠ none := by
  intro ops'
  induction ops' with
  | nil => intro _ s hs h; simp [prePhaseE] at h
  | cons op rest ih =>
    intro hops s hs h
    simp only [prePhaseE] at h
    by_cases hp : op.isPre = true
    · simp only [hp, if_true] at h
      rcases hd : doParsePreE op s f with _ | ⟨s2, _ | w⟩ <;> simp only [hd] at h
      · exact doPre_not_none L op s f (hops op (List.mem_cons_self op rest))
          (fun s2 mp h1 h2 => hf s2 mp (hs ▸ h1) h2) hd
      · exact ih (fun o ho => hops o (List.mem_cons_of_mem _ ho)) _ rfl h
      · exact Option.noConfusion h
    · simp only [hp, if_false] at h
      exact ih (fun o ho => hops o (List.mem_cons_of_mem _ ho)) s hs h

/-- An all-failed tuple postfix section leaves the cursor at `pre_op`. -/
theorem postScanT_inr_pos (mp preOp : Nat) :
    ∀ (ops' : List (Op ε τ α)) (lhs : α) (s : PState ε), s.pos = preOp →
      ∀ s2 lhs2, postScanTE mp preOp ops' lhs s = .inr (s2, lhs2) →
        s2.pos = preOp := by
  intro ops'
  induction ops' with
  | nil =>
    intro lhs s hs s2 lhs2 h
    simp only [postScanTE] at h
    cases h
    exact hs
  | cons op rest ih =>
    intro lhs s hs s2 lhs2 h
    simp only [postScanTE] at h
    by_cases hg : op.isPost = true ∧ mp ≤ op.assoc.rightPower
    · simp only [if_pos hg] at h
      rcases hd : doParsePostE op lhs s with ⟨s1, out | out⟩ <;>
        simp only [hd] at h
      · exact ih out _ rfl s2 lhs2 h
      · simp at h
    · simp only [if_neg hg] at h
      exact ih lhs s hs s2 lhs2 h

/-- A successful tuple postfix section lands strictly past `pre_op` and
within `L`. -/
theorem postScanT_inl_pos (L mp preOp : Nat) :
    ∀ (ops' : List (Op ε τ α)), (∀ op ∈ ops', Progressive L op.tokP) →
      ∀ (lhs : α) (s : PState ε), s.pos = preOp →
      ∀ s2 lhs2, postScanTE mp preOp ops' lhs s = .inl (s2, lhs2) →
        preOp < s2.pos ∧ s2.pos ≤ L := by
  intro ops'
  induction ops' with
  | nil => intro _ lhs s hs s2 lhs2 h; simp [postScanTE] at h
  | cons op rest ih =>
    intro hops lhs s hs s2 lhs2 h
    simp only [postScanTE] at h
    by_cases hg : op.isPost = true ∧ mp ≤ op.assoc.rightPower
    · simp only [if_pos hg] at h
      rcases hd : doParsePostE op lhs s with ⟨s1, out | out⟩ <;>
        simp only [hd] at h
      · exact ih (fun o ho => hops o (List.mem_cons_of_mem _ ho)) out _ rfl
          s2 lhs2 h
      · have hpos := doPost_ok_pos L op lhs s
          (hops op (List.mem_cons_self op rest)) s1 out hd
        cases h
        omega
    · simp only [if_neg hg] at h
      exact ih (fun o ho => hops o (List.mem_cons_of_mem _ ho)) lhs s hs
        s2 lhs2 h

/-- The slice postfix `for` loop never moves the cursor before `pre_op`. -/
theorem postScanS_pos (L mp preOp : Nat) :
    ∀ (ops' : List (Op ε τ α)), (∀ op ∈ ops', Progressive L op.tokP) →
      ∀ (lhs : α) (s : PState ε), preOp ≤ s.pos →
      preOp ≤ (postScanSE mp preOp ops' lhs s).1.pos := by
  intro ops'
  induction ops' with
  | nil => intro _ lhs s hs; simpa [postScanSE] using hs
  | cons op rest ih =>
    intro hops lhs s hs
    simp only [postScanSE]
    by_cases hg : op.isPost = true ∧ mp ≤ op.assoc.rightPower
    · simp only [if_pos hg]
      rcases hd : doParsePostE op lhs s with ⟨s1, out | out⟩ <;>
        simp only [hd]
      · exact ih (fun o ho => hops o (List.mem_cons_of_mem _ ho)) out _ le_rfl
      · have hpos := doPost_ok_pos L op lhs s
          (hops op (List.mem_cons_self op rest)) s1 out hd
        exact ih (fun o ho => hops o (List.mem_cons_of_mem _ ho)) out s1
          (by omega)
    · simp only [if_neg hg]
      exact ih (fun o ho => hops o (List.mem_cons_of_mem _ ho)) lhs s hs

/-- The infix section cannot run out of fuel when the recursion cannot at
any state strictly past `B` and within `L`. -/
theorem infScan_not_none (L : Nat) (f : Recur ε α) (mp preOp B : Nat)
    (hf : ∀ s2 mp2, B < s2.pos → s2.pos ≤ L → f s2 mp2 ≠ none)
    (hB : B ≤ preOp) :
    ∀ (ops' : List (Op ε τ α)), (∀ op ∈ ops', Progressive L op.tokP) →
      ∀ (lhs : α) (s : PState ε), preOp ≤ s.pos →
      infScanE f mp preOp ops' lhs s ≠ none := by
  intro ops'
  induction ops' with
  | nil => intro _ lhs s hs h; simp [infScanE] at h
  | cons op rest ih =>
    intro hops lhs s hs h
    simp only [infScanE] at h
    by_cases hg : op.isInf = true ∧ mp ≤ op.assoc.leftPower
    · simp only [if_pos hg] at h
      rcases hd : doParseInfE op lhs s f with _ | ⟨s1, out | out⟩ <;>
        simp only [hd] at h
      · exact doInf_not_none L op lhs s f
          (hops op (List.mem_cons_self op rest))
          (fun s2 mp2 h1 h2 => hf s2 mp2 (by omega) h2) hd
      · exact ih (fun o ho => hops o (List.mem_cons_of_mem _ ho)) out _
          le_rfl h
      · exact Option.noConfusion h
    · simp only [if_neg hg] at h
      exact ih (fun o ho => hops o (List.mem_cons_of_mem _ ho)) lhs s hs h

/-- A successful infix section lands strictly past `pre_op` and within `L`. -/
theorem infScan_inl_pos (L : Nat) (f : Recur ε α) (mp preOp : Nat)
    (hf : ∀ s2 mp2 s3 v, f s2 mp2 = some (s3, some v) →
      s2.pos < s3.pos ∧ s3.pos ≤ L) :
    ∀ (ops' : List (Op ε τ α)), (∀ op ∈ ops', Progressive L op.tokP) →
      ∀ (lhs : α) (s : PState ε), preOp ≤ s.pos →
      ∀ s3 l3, infScanE f mp preOp ops' lhs s = some (.inl (s3, l3)) →
        preOp < s3.pos ∧ s3.pos ≤ L := by
  intro ops'
  induction ops' with
  | nil => intro _ lhs s hs s3 l3 h; simp [infScanE] at h
  | cons op rest ih =>
    intro hops lhs s hs s3 l3 h
    simp only [infScanE] at h
    by_cases hg : op.isInf = true ∧ mp ≤ op.assoc.leftPower
    · simp only [if_pos hg] at h
      rcases hd : doParseInfE op lhs s f with _ | ⟨s1, out | out⟩ <;>
        simp only [hd] at h
      · exact Option.noConfusion h
      · exact ih (fun o ho => hops o (List.mem_cons_of_mem _ ho)) out _
          le_rfl s3 l3 h
      · have hpos := doInf_ok_pos L op lhs s f
          (hops op (List.mem_cons_self op rest)) hf s1 out hd
        cases h
        omega
    · simp only [if_neg hg] at h
      exact ih (fun o ho => hops o (List.mem_cons_of_mem _ ho)) lhs s hs
        s3 l3 h

/-- A successful tuple continuation loop never moves the cursor backwards
and stays within `L`. -/
theorem loopT_pos (L : Nat) (recur : Recur ε α) (ops : List (Op ε τ α))
    (mp : Nat) (Hops : ∀ op ∈ ops, Progressive L op.tokP)
    (hrp : ∀ s2 mp2 s3 v, recur s2 mp2 = some (s3, some v) →
      s2.pos < s3.pos ∧ s3.pos ≤ L) :
    ∀ (g : Nat) (lhs : α) (s1 s' : PState ε) (v : α), s1.pos ≤ L →
      prattLoopTE g recur ops mp lhs s1 = some (s', some v) →
      s1.pos ≤ s'.pos ∧ s'.pos ≤ L := by
  intro g
  induction g with
  | zero => intro lhs s1 s' v hL h; exact Option.noConfusion h
  | succ gg ih =>
    intro lhs s1 s' v hL h
    simp only [prattLoopTE] at h
    rcases hps : postScanTE mp s1.pos ops lhs s1 with ⟨s2, lhs2⟩ | ⟨s2, lhs2⟩ <;>
      simp only [hps] at h
    · have hpos := postScanT_inl_pos L mp s1.pos ops Hops lhs s1 rfl s2 lhs2 hps
      have hrest := ih lhs2 s2 s' v (by omega) h
      omega
    · have hpos2 := postScanT_inr_pos mp s1.pos ops lhs s1 rfl s2 lhs2 hps
      rcases his : infScanE recur mp s1.pos ops lhs2 s2 with
          _ | (⟨s3, l3⟩ | ⟨s3, l3⟩) <;> simp only [his] at h
      · exact Option.noConfusion h
      · have hpos3 := infScan_inl_pos L recur mp s1.pos hrp ops Hops lhs2 s2
          (by omega) s3 l3 his
        have hrest := ih l3 s3 s' v (by omega) h
        omega
      · cases h
        exact ⟨le_rfl, hL⟩

/-- A successful slice continuation loop never moves the cursor backwards
and stays within `L`. -/
theorem loopS_pos (L : Nat) (recur : Recur ε α) (ops : List (Op ε τ α))
    (mp : Nat) (Hops : ∀ op ∈ ops, Progressive L op.tokP)
    (hrp : ∀ s2 mp2 s3 v, recur s2 mp2 = some (s3, some v) →
      s2.pos < s3.pos ∧ s3.pos ≤ L) :
    ∀ (g : Nat) (lhs : α) (s1 s' : PState ε) (v : α), s1.pos ≤ L →
      prattLoopSE g recur ops mp lhs s1 = some (s', some v) →
      s1.pos ≤ s'.pos ∧ s'.pos ≤ L := by
  intro g
  induction g with
  | zero => intro lhs s1 s' v hL h; exact Option.noConfusion h
  | succ gg ih =>
    intro lhs s1 s' v hL h
    simp only [prattLoopSE] at h
    have hpos2 := postScanS_pos L mp s1.pos ops Hops lhs s1 le_rfl
    rcases his : infScanE recur mp s1.pos ops
        (postScanSE mp s1.pos ops lhs s1).2 (postScanSE mp s1.pos ops lhs s1).1
        with _ | (⟨s3, l3⟩ | ⟨s3, l3⟩) <;> simp only [his] at h
    · exact Option.noConfusion h
    · have hpos3 := infScan_inl_pos L recur mp s1.pos hrp ops Hops
        (postScanSE mp s1.pos ops lhs s1).2 (postScanSE mp s1.pos ops lhs s1).1
        hpos2 s3 l3 his
      have hrest := ih l3 s3 s' v (by omega) h
      omega
    · cases h
      exact ⟨le_rfl, hL⟩

/-- A successful tuple driver run advances the cursor and stays within `L`. -/
theorem goT_pos (L : Nat) (atom : PFn ε α) (ops : List (Op ε τ α))
    (HA : Progressive L atom) (Hops : ∀ op ∈ ops, Progressive L op.tokP) :
    ∀ (fuel : Nat) (s : PState ε) (mp : Nat) (s' : PState ε) (v : α),
      prattGoTE fuel atom ops s mp = some (s', some v) →
      s.pos < s'.pos ∧ s'.pos ≤ L := by
  intro fuel
  induction fuel with
  | zero => intro s mp s' v h; exact Option.noConfusion h
  | succ f ih =>
    intro s mp s' v h
    simp only [prattGoTE] at h
    have hrp : ∀ s2 mp2 s3 w, prattGoTE f atom ops s2 mp2 = some (s3, some w) →
        s2.pos < s3.pos ∧ s3.pos ≤ L := fun s2 mp2 s3 w hh => ih s2 mp2 s3 w hh
    rcases hpp : prePhaseE (fun s1 mp1 => prattGoTE f atom ops s1 mp1) s.pos
        ops s with _ | (⟨s1, lhs⟩ | s1) <;> simp only [hpp] at h
    · exact Option.noConfusion h
    · have h1 := prePhase_inl_pos L _ s.pos hrp ops Hops s rfl s1 lhs hpp
      have h2 := loopT_pos L _ ops mp Hops hrp f lhs s1 s' v (by omega) h
      omega
    · have h1 := prePhase_inr_pos _ s.pos ops s rfl s1 hpp
      rcases ha : atom s1 with ⟨s2, _ | w⟩ <;> simp only [ha] at h
      · simp at h
      · have h2 := HA s1 s2 w ha
        have h3 := loopT_pos L _ ops mp Hops hrp f w s2 s' v (by omega) h
        omega

/-- A successful slice driver run advances the cursor and stays within `L`. -/
theorem goS_pos (L : Nat) (atom : PFn ε α) (ops : List (Op ε τ α))
    (HA : Progressive L atom) (Hops : ∀ op ∈ ops, Progressive L op.tokP) :
    ∀ (fuel : Nat) (s : PState ε) (mp : Nat) (s' : PState ε) (v : α),
      prattGoSE fuel atom ops s mp = some (s', some v) →
      s.pos < s'.pos ∧ s'.pos ≤ L := by
  intro fuel
  induction fuel with
  | zero => intro s mp s' v h; exact Option.noConfusion h
  | succ f ih =>
    intro s mp s' v h
    simp only [prattGoSE] at h
    have hrp : ∀ s2 mp2 s3 w, prattGoSE f atom ops s2 mp2 = some (s3, some w) →
        s2.pos < s3.pos ∧ s3.pos ≤ L := fun s2 mp2 s3 w hh => ih s2 mp2 s3 w hh
    rcases hpp : prePhaseE (fun s1 mp1 => prattGoSE f atom ops s1 mp1) s.pos
        ops s with _ | (⟨s1, lhs⟩ | s1) <;> simp only [hpp] at h
    · exact Option.noConfusion h
    · have h1 := prePhase_inl_pos L _ s.pos hrp ops Hops s rfl s1 lhs hpp
      have h2 := loopS_pos L _ ops mp Hops hrp f lhs s1 s' v (by omega) h
      omega
    · have h1 := prePhase_inr_pos _ s.pos ops s rfl s1 hpp
      rcases ha : atom s1 with ⟨s2, _ | w⟩ <;> simp only [ha] at h
      · simp at h
      · have h2 := HA s1 s2 w ha
        have h3 := loopS_pos L _ ops mp Hops hrp f w s2 s' v (by omega) h
        omega

/-- The tuple continuation loop terminates with fuel `k + 1` when `k` covers
the remaining input and the recursion cannot run out of fuel. -/
theorem loopT_term (L : Nat) (recur : Recur ε α) (ops : List (Op ε τ α))
    (mp B : Nat) (Hops : ∀ op ∈ ops, Progressive L op.tokP)
    (hrt : ∀ s2 mp2, B < s2.pos → s2.pos ≤ L → recur s2 mp2 ≠ none)
    (hrp : ∀ s2 mp2 s3 v, recur s2 mp2 = some (s3, some v) →
      s2.pos < s3.pos ∧ s3.pos ≤ L) :
    ∀ (k : Nat) (lhs : α) (s1 : PState ε), B ≤ s1.pos → L + 1 - s1.pos ≤ k →
      prattLoopTE (k + 1) recur ops mp lhs s1 ≠ none := by
  intro k
  induction k with
  | zero =>
    intro lhs s1 hB hm h
    simp only [prattLoopTE] at h
    rcases hps : postScanTE mp s1.pos ops lhs s1 with ⟨s2, lhs2⟩ | ⟨s2, lhs2⟩ <;>
      simp only [hps] at h
    · have hpos := postScanT_inl_pos L mp s1.pos ops Hops lhs s1 rfl s2 lhs2 hps
      omega
    · have hpos2 := postScanT_inr_pos mp s1.pos ops lhs s1 rfl s2 lhs2 hps
      rcases his : infScanE recur mp s1.pos ops lhs2 s2 with
          _ | (⟨s3, l3⟩ | ⟨s3, l3⟩) <;> simp only [his] at h
      · exact infScan_not_none L recur mp s1.pos B hrt (by omega) ops Hops
          lhs2 s2 (by omega) his
      · have hpos3 := infScan_inl_pos L recur mp s1.pos hrp ops Hops lhs2 s2
          (by omega) s3 l3 his
        omega
      · exact Option.noConfusion h
  | succ kk ih =>
    intro lhs s1 hB hm h
    simp only [prattLoopTE] at h
    rcases hps : postScanTE mp s1.pos ops lhs s1 with ⟨s2, lhs2⟩ | ⟨s2, lhs2⟩ <;>
      simp only [hps] at h
    · have hpos := postScanT_inl_pos L mp s1.pos ops Hops lhs s1 rfl s2 lhs2 hps
      exact ih lhs2 s2 (by omega) (by omega) h
    · have hpos2 := postScanT_inr_pos mp s1.pos ops lhs s1 rfl s2 lhs2 hps
      rcases his : infScanE recur mp s1.pos ops lhs2 s2 with
          _ | (⟨s3, l3⟩ | ⟨s3, l3⟩) <;> simp only [his] at h
      · exact infScan_not_none L recur mp s1.pos B hrt (by omega) ops Hops
          lhs2 s2 (by omega) his
      · have hpos3 := infScan_inl_pos L recur mp s1.pos hrp ops Hops lhs2 s2
          (by omega) s3 l3 his
        exact ih l3 s3 (by omega) (by omega) h
      · exact Option.noConfusion h

/-- The slice continuation loop terminates with fuel `k + 1` when `k` covers
the remaining input and the recursion cannot run out of fuel. -/
theorem loopS_term (L : Nat) (recur : Recur ε α) (ops : List (Op ε τ α))
    (mp B : Nat) (Hops : ∀ op ∈ ops, Progressive L op.tokP)
    (hrt : ∀ s2 mp2, B < s2.pos → s2.pos ≤ L → recur s2 mp2 ≠ none)
    (hrp : ∀ s2 mp2 s3 v, recur s2 mp2 = some (s3, some v) →
      s2.pos < s3.pos ∧ s3.pos ≤ L) :
    ∀ (k : Nat) (lhs : α) (s1 : PState ε), B ≤ s1.pos → L + 1 - s1.pos ≤ k →
      prattLoopSE (k + 1) recur ops mp lhs s1 ≠ none := by
  intro k
  induction k with
  | zero =>
    intro lhs s1 hB hm h
    simp only [prattLoopSE] at h
    have hpos2 := postScanS_pos L mp s1.pos ops Hops lhs s1 le_rfl
    rcases his : infScanE recur mp s1.pos ops
        (postScanSE mp s1.pos ops lhs s1).2 (postScanSE mp s1.pos ops lhs s1).1
        with _ | (⟨s3, l3⟩ | ⟨s3, l3⟩) <;> simp only [his] at h
    · exact infScan_not_none L recur mp s1.pos B hrt (by omega) ops Hops
        (postScanSE mp s1.pos ops lhs s1).2
        (postScanSE mp s1.pos ops lhs s1).1 hpos2 his
    · have hpos3 := infScan_inl_pos L recur mp s1.pos hrp ops Hops
        (postScanSE mp s1.pos ops lhs s1).2 (postScanSE mp s1.pos ops lhs s1).1
        hpos2 s3 l3 his
      omega
    · exact Option.noConfusion h
  | succ kk ih =>
    intro lhs s1 hB hm h
    simp only [prattLoopSE] at h
    have hpos2 := postScanS_pos L mp s1.pos ops Hops lhs s1 le_rfl
    rcases his : infScanE recur mp s1.pos ops
        (postScanSE mp s1.pos ops lhs s1).2 (postScanSE mp s1.pos ops lhs s1).1
        with _ | (⟨s3, l3⟩ | ⟨s3, l3⟩) <;> simp only [his] at h
    · exact infScan_not_none L recur mp s1.pos B hrt (by omega) ops Hops
        (postScanSE mp s1.pos ops lhs s1).2
        (postScanSE mp s1.pos ops lhs s1).1 hpos2 his
    · have hpos3 := infScan_inl_pos L recur mp s1.pos hrp ops Hops
        (postScanSE mp s1.pos ops lhs s1).2 (postScanSE mp s1.pos ops lhs s1).1
        hpos2 s3 l3 his
      exact ih l3 s3 (by omega) (by omega) h
    · exact Option.noConfusion h

/-- The tuple driver terminates with fuel `m + 1` when `m` covers the
remaining input, under progressive sub-parsers. -/
theorem goT_term (L : Nat) (atom : PFn ε α) (ops : List (Op ε τ α))
    (HA : Progressive L atom) (Hops : ∀ op ∈ ops, Progressive L op.tokP) :
    ∀ (m : Nat) (s : PState ε) (mp : Nat), L + 1 - s.pos ≤ m →
      prattGoTE (m + 1) atom ops s mp ≠ none := by
  intro m
  induction m using Nat.strong_induction_on with
  | _ m ih =>
    intro s mp hm h
    simp only [prattGoTE] at h
    have hrp : ∀ s2 mp2 s3 v, prattGoTE m atom ops s2 mp2 = some (s3, some v) →
        s2.pos < s3.pos ∧ s3.pos ≤ L :=
      fun s2 mp2 s3 v hh => goT_pos L atom ops HA Hops m s2 mp2 s3 v hh
    have hrt : ∀ s2 mp2, s.pos < s2.pos → s2.pos ≤ L →
        prattGoTE m atom ops s2 mp2 ≠ none := by
      intro s2 mp2 h1 h2
      cases m with
      | zero => intro _; omega
      | succ n => exact ih n (by omega) s2 mp2 (by omega)
    rcases hpp : prePhaseE (fun s1 mp1 => prattGoTE m atom ops s1 mp1) s.pos
        ops s with _ | (⟨s1, lhs⟩ | s1) <;> simp only [hpp] at h
    · exact prePhase_not_none L _ s.pos
        (fun s2 mp2 h1 h2 => hrt s2 mp2 h1 h2) ops Hops s rfl hpp
    · have h1 := prePhase_inl_pos L _ s.pos hrp ops Hops s rfl s1 lhs hpp
      cases m with
      | zero => omega
      | succ n =>
        exact loopT_term L _ ops mp s1.pos Hops
          (fun s2 mp2 hh1 hh2 => hrt s2 mp2 (by omega) hh2) hrp n lhs s1
          le_rfl (by omega) h
    · have h1 := prePhase_inr_pos _ s.pos ops s rfl s1 hpp
      rcases ha : atom s1 with ⟨s2, _ | w⟩ <;> simp only [ha] at h
      · exact Option.noConfusion h
      · have h2 := HA s1 s2 w ha
        cases m with
        | zero => omega
        | succ n =>
          exact loopT_term L _ ops mp s2.pos Hops
            (fun s3 mp3 hh1 hh2 => hrt s3 mp3 (by omega) hh2) hrp n w s2
            le_rfl (by omega) h

/-- The slice driver terminates with fuel `m + 1` when `m` covers the
remaining input, under progressive sub-parsers. -/
theorem goS_term (L : Nat) (atom : PFn ε α) (ops : List (Op ε τ α))
    (HA : Progressive L atom) (Hops : ∀ op ∈ ops, Progressive L op.tokP) :
    ∀ (m : Nat) (s : PState ε) (mp : Nat), L + 1 - s.pos ≤ m →
      prattGoSE (m + 1) atom ops s mp ≠ none := by
  intro m
  induction m using Nat.strong_induction_on with
  | _ m ih =>
    intro s mp hm h
    simp only [prattGoSE] at h
    have hrp : ∀ s2 mp2 s3 v, prattGoSE m atom ops s2 mp2 = some (s3, some v) →
        s2.pos < s3.pos ∧ s3.pos ≤ L :=
      fun s2 mp2 s3 v hh => goS_pos L atom ops HA Hops m s2 mp2 s3 v hh
    have hrt : ∀ s2 mp2, s.pos < s2.pos → s2.pos ≤ L →
        prattGoSE m atom ops s2 mp2 ≠ none := by
      intro s2 mp2 h1 h2
      cases m with
      | zero => intro _; omega
      | succ n => exact ih n (by omega) s2 mp2 (by omega)
    rcases hpp : prePhaseE (fun s1 mp1 => prattGoSE m atom ops s1 mp1) s.pos
        ops s with _ | (⟨s1, lhs⟩ | s1) <;> simp only [hpp] at h
    · exact prePhase_not_none L _ s.pos
        (fun s2 mp2 h1 h2 => hrt s2 mp2 h1 h2) ops Hops s rfl hpp
    · have h1 := prePhase_inl_pos L _ s.pos hrp ops Hops s rfl s1 lhs hpp
      cases m with
      | zero => omega
      | succ n =>
        exact loopS_term L _ ops mp s1.pos Hops
          (fun s2 mp2 hh1 hh2 => hrt s2 mp2 (by omega) hh2) hrp n lhs s1
          le_rfl (by omega) h
    · have h1 := prePhase_inr_pos _ s.pos ops s rfl s1 hpp
      rcases ha : atom s1 with ⟨s2, _ | w⟩ <;> simp only [ha] at h
      · exact Option.noConfusion h
      · have h2 := HA s1 s2 w ha
        cases m with
        | zero => omega
        | succ n =>
          exact loopS_term L _ ops mp s2.pos Hops
            (fun s3 mp3 hh1 hh2 => hrt s3 mp3 (by omega) hh2) hrp n w s2
            le_rfl (by omega) h

/-- C9 (amended): for every input state and operator collection whose atom
and operator-token sub-parsers strictly advance the cursor on success and
never move it past a bound `L`, both drivers terminate — `L + 2` fuel always
suffices.  (The unconditional claim is refuted by `c9_counterexample`: a
token sub-parser succeeding without consuming input makes a driver loop
forever.) -/
theorem c9_amended_termination (ε τ α : Type) (L : Nat) (atom : PFn ε α)
    (ops : List (Op ε τ α)) (HA : Progressive L atom)
    (Hops : ∀ op ∈ ops, Progressive L op.tokP) (s : PState ε) (mp : Nat) :
    prattGoTE (L + 2) atom ops s mp ≠ none ∧
    prattGoSE (L + 2) atom ops s mp ≠ none :=
  ⟨goT_term L atom ops HA Hops (L + 1) s mp (by omega),
   goS_term L atom ops HA Hops (L + 1) s mp (by omega)⟩

/-- Witness for the amended C9 at a concrete collection. -/
theorem c9_amended_termination_witness :
    prattGoTE 2 atomFail ([] : List (Op Unit Unit Unit)) s0 0 ≠ none ∧
    prattGoSE 2 atomFail ([] : List (Op Unit Unit Unit)) s0 0 ≠ none :=
  c9_amended_termination Unit Unit Unit 0 atomFail []
    (by intro s s' v h; simp [atomFail] at h)
    (by intro op h; simp at h) s0 0

end ChumskyPratt
